import Mathlib

/-!
# Verification of the text chunking / stats / translation-cache core

Shallow embedding of `src/utils/text_processor.py` (`split_into_chunks`,
`combine_chunks`, `get_text_stats`) and of the cache logic of
`TranslationTool.translate_text` in `src/utils/tools.py`.

Strings are modelled as `List Char`.  Whitespace is the ASCII whitespace
set recognised by Python's `\s`, `str.split()` and `str.strip()` on
ASCII text.  The external translation backend is modelled as a function
`List Char → Option (List Char)` (`none` = the backend call raised), and
`translate_text` additionally returns the number of backend invocations.
-/

set_option maxHeartbeats 1000000
set_option maxRecDepth 4000

abbrev Str := List Char

/-- ASCII whitespace, the character class of Python's `\s`, `strip()` and
`split()` on ASCII text. -/
def isWS (c : Char) : Bool :=
  c = ' ' || c = '\t' || c = '\n' || c = '\r' || c = '\x0b' || c = '\x0c'

/-- The sentence-terminating punctuation of the regex `(?<=[.!?])\s+`. -/
def isPunct (c : Char) : Bool :=
  c = '.' || c = '!' || c = '?'

/-- Is the previous character (head of the reversed accumulator) in `[.!?]`? -/
def prevPunct : Str → Bool
  | [] => false
  | p :: _ => isPunct p

/-- Worker for `re.split(r'(?<=[.!?])\s+', text)`: scans left to right,
`acc` holds the current segment reversed (so its head is the character
just before the scan position, which is what the lookbehind consults).
`skip = true` means we are still consuming the greedy whitespace run of
the delimiter just matched (during which `acc` is empty). -/
def sentenceSplitAux (skip : Bool) (cs : Str) (acc : Str) : List Str :=
  match cs with
  | [] => [acc.reverse]
  | c :: rest =>
    if skip && isWS c then sentenceSplitAux true rest acc
    else if isWS c && prevPunct acc then
      acc.reverse :: sentenceSplitAux true rest []
    else
      sentenceSplitAux false rest (c :: acc)

/-- `re.split(r'(?<=[.!?])\s+', text)` from `text_processor.py`. -/
def sentenceSplit (text : Str) : List Str :=
  sentenceSplitAux false text []

/-- Python `str.strip()`: drop whitespace from both ends. -/
def strip (s : Str) : Str :=
  ((s.dropWhile isWS).reverse.dropWhile isWS).reverse

/-- Emit the pending accumulator as one token if it is nonempty
(Python's `if acc: out.append(...)` idiom, accumulator reversed). -/
def flushOpt (acc : Str) : List Str :=
  if acc.isEmpty then [] else [acc.reverse]

/-- Worker for Python `str.split()` (split on whitespace runs, no empty
tokens). -/
def pySplitAux (cs : Str) (acc : Str) : List Str :=
  match cs with
  | [] => flushOpt acc
  | c :: rest =>
    if isWS c then flushOpt acc ++ pySplitAux rest []
    else pySplitAux rest (c :: acc)

/-- Python `str.split()` with no arguments. -/
def pySplit (s : Str) : List Str := pySplitAux s []

/-- `' '.join(parts)`. -/
def joinSp : List Str → Str
  | [] => []
  | [s] => s
  | s :: t :: rest => s ++ ' ' :: joinSp (t :: rest)

/-- Emit the current chunk if nonempty (`if current_chunk: chunks.append(' '.join(current_chunk))`). -/
def emit (cur : List Str) : List Str :=
  if cur.isEmpty then [] else [joinSp cur]

/-- The word-packing loop of `split_into_chunks` for an oversized
sentence (lines 36-51 of `text_processor.py`), returning the chunks it
appends. -/
def packWords (N : Nat) (ws : List Str) (temp : List Str) (size : Nat) : List Str :=
  match ws with
  | [] => emit temp
  | w :: rest =>
    if size + w.length + 1 ≤ N then
      packWords N rest (temp ++ [w]) (size + w.length + 1)
    else
      emit temp ++ packWords N rest [w] w.length

/-- The sentence loop of `split_into_chunks` (lines 23-65 of
`text_processor.py`), returning the chunks it appends. -/
def chunkLoop (N : Nat) (sents : List Str) (cur : List Str) (size : Nat) : List Str :=
  match sents with
  | [] => emit cur
  | s :: rest =>
    let t := strip s
    if t.isEmpty then chunkLoop N rest cur size
    else if N < t.length then
      emit cur ++ packWords N (pySplit t) [] 0 ++ chunkLoop N rest [] 0
    else if size + t.length + 1 ≤ N then
      chunkLoop N rest (cur ++ [t]) (size + t.length + 1)
    else
      emit cur ++ chunkLoop N rest [t] t.length

/-- `split_into_chunks(text, max_chunk_size)` from `text_processor.py`. -/
def split_into_chunks (text : Str) (max_chunk_size : Nat) : List Str :=
  if text.isEmpty then [] else chunkLoop max_chunk_size (sentenceSplit text) [] 0

/-- `combine_chunks(chunks)` from `text_processor.py`. -/
def combine_chunks (chunks : List Str) : Str := joinSp chunks

/-- The record returned by `get_text_stats`. -/
structure TextStats where
  characters : Nat
  words : Nat
  sentences : Nat
deriving DecidableEq, Repr

/-- `get_text_stats(text)` from `text_processor.py`.  Note the Python
code counts `len(re.split(...))`, i.e. all segments including empty
ones. -/
def get_text_stats (text : Str) : TextStats :=
  if text.isEmpty then ⟨0, 0, 0⟩
  else ⟨text.length, (pySplit text).length, (sentenceSplit text).length⟩

/-- The trimmed, non-empty sentences actually processed by the loop of
`split_into_chunks` (lines 23-26 of `text_processor.py`). -/
def cleanSents (text : Str) : List Str :=
  ((sentenceSplit text).map strip).filter (fun s => !s.isEmpty)

/-- No `[.!?]` character immediately followed by a whitespace character,
i.e. the string contains no match point of `(?<=[.!?])\s+`. -/
def noPW : Str → Bool
  | [] => true
  | [_] => true
  | c :: d :: rest => !(isPunct c && isWS d) && noPW (d :: rest)

/-- Empty or starting with a non-whitespace character. -/
def startsNonWS : Str → Bool
  | [] => true
  | c :: _ => !isWS c

/-- The last character is sentence punctuation. -/
def endsPunct (s : Str) : Bool :=
  match s.getLast? with
  | some c => isPunct c
  | none => false

/-- Every listed string except possibly the last ends with sentence
punctuation. -/
def chainPunct : List Str → Bool
  | [] => true
  | [_] => true
  | s :: t :: rest => endsPunct s && chainPunct (t :: rest)

/-! ## Translation tool (`src/utils/tools.py`) -/

/-- `SUPPORTED_LANGUAGES` keys from `src/utils/config.py`. -/
def SUPPORTED_LANGUAGES : List Str :=
  ["en".data, "es".data, "fr".data, "de".data, "it".data, "pt".data,
   "ru".data, "zh".data, "ja".data, "ko".data, "bn".data]

/-- Result of one `translate_text` call: a returned string, or the
`ValueError("Unsupported language...")` raised at line 23 of `tools.py`. -/
inductive TransResult where
  | ok : Str → TransResult
  | unsupportedError : TransResult
deriving DecidableEq, Repr

/-- The mutable state of a `TranslationTool`: its `_translation_cache`
dict, modelled as an association list with the newest binding first. -/
structure TransState where
  cache : List (Str × Str)
deriving DecidableEq, Repr

/-- Dict lookup on the association list. -/
def lookupCache (cache : List (Str × Str)) (k : Str) : Option Str :=
  match cache with
  | [] => none
  | (k2, v) :: rest => if k2 = k then some v else lookupCache rest k

/-- Fuel-indexed worker for the backend slicing; the fuel (an upper
bound on the number of slices, e.g. the text length) only encodes
termination and never runs out when `fuel ≥ cs.length`. -/
def sliceChunksF : Nat → Str → List Str
  | _, [] => []
  | 0, cs => [cs]
  | fuel + 1, c :: cs => (c :: cs).take 5000 :: sliceChunksF fuel ((c :: cs).drop 5000)

/-- `[text[i:i + 5000] for i in range(0, len(text), 5000)]` from
`tools.py` line 40 (Google Translate's payload limit). -/
def sliceChunks (cs : Str) : List Str :=
  sliceChunksF cs.length cs

/-- `all(ord(c) < 128 for c in text)`. -/
def allAscii (s : Str) : Bool := s.all (fun c => c.toNat < 128)

/-- `TranslationTool.translate_text(text, target_lang)` from `tools.py`.
The external `GoogleTranslator.translate` collaborator is the `backend`
parameter; `none` models a raised exception for that segment, which the
code catches per segment (lines 45-50), substituting the original
segment.  The third component counts backend invocations. -/
def translate_text (backend : Str → Option Str) (st : TransState)
    (text target_lang : Str) : TransResult × TransState × Nat :=
  if (strip text).isEmpty then (TransResult.ok text, st, 0)
  else if target_lang ∈ SUPPORTED_LANGUAGES then
    if target_lang = "en".data && allAscii text then (TransResult.ok text, st, 0)
    else
      let key := text ++ '_' :: target_lang
      match lookupCache st.cache key with
      | some v => (TransResult.ok v, st, 0)
      | none =>
        let chunks := sliceChunks text
        let result := joinSp (chunks.map (fun c => (backend c).getD c))
        (TransResult.ok result, ⟨(key, result) :: st.cache⟩, chunks.length)
  else (TransResult.unsupportedError, st, 0)

/-! ## Behaviour of `translate_text` on each of its paths -/

theorem translate_text_blank (backend : Str → Option Str) (st : TransState)
    (text target_lang : Str) (h : strip text = []) :
    translate_text backend st text target_lang = (TransResult.ok text, st, 0) := by
  simp [translate_text, h]

theorem translate_text_unsupported (backend : Str → Option Str) (st : TransState)
    (text target_lang : Str) (h1 : strip text ≠ [])
    (h2 : target_lang ∉ SUPPORTED_LANGUAGES) :
    translate_text backend st text target_lang = (TransResult.unsupportedError, st, 0) := by
  simp [translate_text, h1, h2]

theorem translate_text_hit (backend : Str → Option Str) (st : TransState)
    (text target_lang v : Str) (h1 : strip text ≠ [])
    (h2 : target_lang ∈ SUPPORTED_LANGUAGES)
    (h3 : (target_lang = "en".data && allAscii text) = false)
    (h4 : lookupCache st.cache (text ++ '_' :: target_lang) = some v) :
    translate_text backend st text target_lang = (TransResult.ok v, st, 0) := by
  simp [translate_text, h1, h2, h3, h4]

theorem translate_text_miss (backend : Str → Option Str) (st : TransState)
    (text target_lang : Str) (h1 : strip text ≠ [])
    (h2 : target_lang ∈ SUPPORTED_LANGUAGES)
    (h3 : (target_lang = "en".data && allAscii text) = false)
    (h4 : lookupCache st.cache (text ++ '_' :: target_lang) = none) :
    translate_text backend st text target_lang =
      (TransResult.ok (joinSp ((sliceChunks text).map (fun c => (backend c).getD c))),
       ⟨(text ++ '_' :: target_lang,
         joinSp ((sliceChunks text).map (fun c => (backend c).getD c))) :: st.cache⟩,
       (sliceChunks text).length) := by
  simp [translate_text, h1, h2, h3, h4]

theorem sliceChunksF_nil (fuel : Nat) : sliceChunksF fuel [] = [] := by
  cases fuel <;> rfl

theorem sliceChunks_short (cs : Str) (h0 : cs ≠ []) (h : cs.length ≤ 5000) :
    sliceChunks cs = [cs] := by
  cases cs with
  | nil => exact absurd rfl h0
  | cons c rest =>
    unfold sliceChunks
    simp only [List.length_cons, sliceChunksF]
    rw [List.take_of_length_le (by simpa using h),
        List.drop_eq_nil_of_le (by simpa using h), sliceChunksF_nil]

/-- C10: a text that is empty or whitespace-only is returned unchanged
for every target language (supported or not), with no error, no cache
access and no backend call. -/
theorem c10_blank_returned_unchanged (backend : Str → Option Str) (st : TransState)
    (text target_lang : Str) (h : strip text = []) :
    translate_text backend st text target_lang = (TransResult.ok text, st, 0) :=
  translate_text_blank backend st text target_lang h

theorem c10_blank_returned_unchanged_witness :
    strip "  ".data = [] ∧
    translate_text (fun s => some s) ⟨[]⟩ "  ".data "xx".data =
      (TransResult.ok "  ".data, ⟨[]⟩, 0) :=
  ⟨by decide,
   c10_blank_returned_unchanged (fun s => some s) ⟨[]⟩ "  ".data "xx".data (by decide)⟩

/-- C5 counterexample: for the empty text and the unsupported code
`"xx"`, `translate_text` does not raise the unsupported-language error —
it returns the input unchanged, contradicting the claim's "for every
text". -/
theorem c5_counterexample :
    "xx".data ∉ SUPPORTED_LANGUAGES ∧
    translate_text (fun s => some s) ⟨[]⟩ [] "xx".data =
      (TransResult.ok [], ⟨[]⟩, 0) := by
  constructor
  · decide
  · decide

/-- C5 (amended): for every text containing at least one non-whitespace
character and every target code outside the supported set,
`translate_text` raises the unsupported-language error, performs no
backend call and leaves the cache unchanged. -/
theorem c5_unsupported_raises (backend : Str → Option Str) (st : TransState)
    (text target_lang : Str) (h1 : strip text ≠ [])
    (h2 : target_lang ∉ SUPPORTED_LANGUAGES) :
    translate_text backend st text target_lang = (TransResult.unsupportedError, st, 0) :=
  translate_text_unsupported backend st text target_lang h1 h2

theorem c5_unsupported_raises_witness :
    strip "a".data ≠ [] ∧ "xx".data ∉ SUPPORTED_LANGUAGES ∧
    translate_text (fun s => some s) ⟨[]⟩ "a".data "xx".data =
      (TransResult.unsupportedError, ⟨[]⟩, 0) :=
  ⟨by decide, by decide,
   c5_unsupported_raises (fun s => some s) ⟨[]⟩ "a".data "xx".data (by decide) (by decide)⟩

/-- C7: on a cache miss for a supported language, the call never fails as
a whole, whatever the backend does on each segment: each segment whose
backend call fails contributes its original (untranslated) text, and the
result is the single-space rejoin of the per-segment best-effort
results. -/
theorem c7_segment_failure_best_effort (backend : Str → Option Str) (st : TransState)
    (text target_lang : Str) (h1 : strip text ≠ [])
    (h2 : target_lang ∈ SUPPORTED_LANGUAGES)
    (h3 : (target_lang = "en".data && allAscii text) = false)
    (h4 : lookupCache st.cache (text ++ '_' :: target_lang) = none) :
    translate_text backend st text target_lang =
      (TransResult.ok (joinSp ((sliceChunks text).map (fun c => (backend c).getD c))),
       ⟨(text ++ '_' :: target_lang,
         joinSp ((sliceChunks text).map (fun c => (backend c).getD c))) :: st.cache⟩,
       (sliceChunks text).length) :=
  translate_text_miss backend st text target_lang h1 h2 h3 h4

theorem c7_segment_failure_best_effort_witness :
    strip "hola.".data ≠ [] ∧ "bn".data ∈ SUPPORTED_LANGUAGES ∧
    ("bn".data = "en".data && allAscii "hola.".data) = false ∧
    lookupCache ([] : List (Str × Str)) ("hola.".data ++ '_' :: "bn".data) = none ∧
    translate_text (fun _ => none) ⟨[]⟩ "hola.".data "bn".data =
      (TransResult.ok (joinSp ((sliceChunks "hola.".data).map
          (fun c => ((fun _ => (none : Option Str)) c).getD c))),
       ⟨("hola.".data ++ '_' :: "bn".data,
         joinSp ((sliceChunks "hola.".data).map
           (fun c => ((fun _ => (none : Option Str)) c).getD c))) :: ([] : List (Str × Str))⟩,
       (sliceChunks "hola.".data).length) :=
  ⟨by decide, by decide, by decide, by decide,
   c7_segment_failure_best_effort (fun _ => none) ⟨[]⟩ "hola.".data "bn".data
     (by decide) (by decide) (by decide) (by decide)⟩

theorem sliceChunksF_fuel (fuel : Nat) (cs : Str) (h : cs.length ≤ fuel) :
    sliceChunksF fuel cs = sliceChunksF cs.length cs := by
  induction fuel using Nat.strong_induction_on generalizing cs with
  | _ fuel ih =>
    match fuel, cs with
    | _, [] => rw [sliceChunksF_nil, sliceChunksF_nil]
    | 0, c :: rest => simp at h
    | fuel + 1, c :: rest =>
      simp only [List.length_cons, sliceChunksF]
      have hlen : ((c :: rest).drop 5000).length ≤ fuel := by
        simp only [List.length_drop, List.length_cons]
        simp only [List.length_cons] at h
        omega
      rw [ih fuel (Nat.lt_succ_self fuel) _ hlen,
          ih rest.length (by simp only [List.length_cons] at h; omega) _
            (by simp only [List.length_drop, List.length_cons]; omega)]

/-- The fuel encoding satisfies exactly the Python unfolding: a nonempty
text yields its first 5000 characters and then the slices of the rest. -/
theorem sliceChunks_cons_expand (cs : Str) (h : cs ≠ []) :
    sliceChunks cs = cs.take 5000 :: sliceChunks (cs.drop 5000) := by
  cases cs with
  | nil => exact absurd rfl h
  | cons c rest =>
    show sliceChunksF (c :: rest).length (c :: rest) = _
    simp only [List.length_cons, sliceChunksF]
    rw [sliceChunksF_fuel rest.length _ (by simp only [List.length_drop, List.length_cons]; omega)]
    rfl

theorem lookupCache_head (cache : List (Str × Str)) (k v : Str) :
    lookupCache ((k, v) :: cache) k = some v := by
  simp [lookupCache]

theorem translate_text_miss_count (backend : Str → Option Str) (st : TransState)
    (text target_lang : Str) (h1 : strip text ≠ [])
    (h2 : target_lang ∈ SUPPORTED_LANGUAGES)
    (h3 : (target_lang = "en".data && allAscii text) = false)
    (h4 : lookupCache st.cache (text ++ '_' :: target_lang) = none) :
    (translate_text backend st text target_lang).2.2 = (sliceChunks text).length := by
  rw [translate_text_miss backend st text target_lang h1 h2 h3 h4]

/-- C6 (amended): for any cache state, backend and text that fits in a
single backend slice (≤ 5000 characters), two successive
`translate_text(text, "bn")` calls invoke the backend at most once in
total, the second call invokes it zero times, and the second call
returns the same result as the first. -/
theorem c6_second_call_cached (backend : Str → Option Str) (st : TransState)
    (text : Str) (hlen : text.length ≤ 5000) :
    (translate_text backend st text "bn".data).2.2
      + (translate_text backend (translate_text backend st text "bn".data).2.1
           text "bn".data).2.2 ≤ 1
    ∧ (translate_text backend (translate_text backend st text "bn".data).2.1
         text "bn".data).2.2 = 0
    ∧ (translate_text backend (translate_text backend st text "bn".data).2.1
         text "bn".data).1
        = (translate_text backend st text "bn".data).1 := by
  by_cases hblank : strip text = []
  · rw [translate_text_blank backend st text _ hblank]
    rw [translate_text_blank backend st text _ hblank]
    simp
  · have hsupp : "bn".data ∈ SUPPORTED_LANGUAGES := by decide
    have hshort : ("bn".data = "en".data && allAscii text) = false := by
      rw [show (decide ("bn".data = "en".data)) = false from by decide]
      exact Bool.false_and _
    have htext : text ≠ [] := by
      intro h
      exact hblank (by rw [h]; rfl)
    cases hc : lookupCache st.cache (text ++ '_' :: "bn".data) with
    | some v =>
      rw [translate_text_hit backend st text _ v hblank hsupp hshort hc]
      rw [translate_text_hit backend st text _ v hblank hsupp hshort hc]
      simp
    | none =>
      rw [translate_text_miss backend st text _ hblank hsupp hshort hc]
      rw [translate_text_hit backend _ text _ _ hblank hsupp hshort (lookupCache_head _ _ _)]
      refine ⟨?_, rfl, rfl⟩
      rw [sliceChunks_short text htext hlen]
      simp

theorem c6_second_call_cached_witness :
    "hi".data.length ≤ 5000
    ∧ ((translate_text (fun s => some s) ⟨[]⟩ "hi".data "bn".data).2.2
        + (translate_text (fun s => some s)
             (translate_text (fun s => some s) ⟨[]⟩ "hi".data "bn".data).2.1
             "hi".data "bn".data).2.2 ≤ 1
      ∧ (translate_text (fun s => some s)
           (translate_text (fun s => some s) ⟨[]⟩ "hi".data "bn".data).2.1
           "hi".data "bn".data).2.2 = 0
      ∧ (translate_text (fun s => some s)
           (translate_text (fun s => some s) ⟨[]⟩ "hi".data "bn".data).2.1
           "hi".data "bn".data).1
          = (translate_text (fun s => some s) ⟨[]⟩ "hi".data "bn".data).1) :=
  ⟨by decide, c6_second_call_cached (fun s => some s) ⟨[]⟩ "hi".data (by decide)⟩

theorem dropWhile_isWS_replicate (n : Nat) {c : Char} (h : isWS c = false) :
    (List.replicate n c).dropWhile isWS = List.replicate n c := by
  cases n with
  | zero => simp
  | succ m => rw [List.replicate_succ, List.dropWhile_cons, h]; simp

theorem strip_replicate {n : Nat} {c : Char} (h : isWS c = false) :
    strip (List.replicate n c) = List.replicate n c := by
  unfold strip
  rw [dropWhile_isWS_replicate n h, List.reverse_replicate,
      dropWhile_isWS_replicate n h, List.reverse_replicate]

/-- C6 counterexample: on a 5001-character text, already the FIRST
`translate_text(text, "bn")` call invokes the backend twice (once per
5000-character slice), so the pair of identical calls does not invoke
the backend "at most once". -/
theorem c6_counterexample :
    5000 < (List.replicate 5001 'a').length ∧
    (translate_text (fun s => some s) ⟨[]⟩ (List.replicate 5001 'a') "bn".data).2.2 = 2 := by
  constructor
  · rw [List.length_replicate]; omega
  · have hrep : (List.replicate 5001 'a') ≠ ([] : Str) := by
      intro h
      have := congrArg List.length h
      rw [List.length_replicate, List.length_nil] at this
      omega
    have hblank : strip (List.replicate 5001 'a') ≠ [] := by
      rw [strip_replicate (by decide)]
      exact hrep
    have hsupp : "bn".data ∈ SUPPORTED_LANGUAGES := by decide
    have hshort : ("bn".data = "en".data && allAscii (List.replicate 5001 'a')) = false := by
      rw [show (decide ("bn".data = "en".data)) = false from by decide]
      exact Bool.false_and _
    have h4 : lookupCache (⟨[]⟩ : TransState).cache
        (List.replicate 5001 'a' ++ '_' :: "bn".data) = none := rfl
    rw [translate_text_miss_count (fun s => some s) ⟨[]⟩ _ _ hblank hsupp hshort h4]
    rw [sliceChunks_cons_expand _ hrep, List.drop_replicate]
    rw [show (5001 - 5000 : Nat) = 1 from rfl]
    rw [sliceChunks_short (List.replicate 1 'a') (by simp) (by simp)]
    simp only [List.length_cons, List.length_nil]

/-! ## Text statistics -/

/-- C3 counterexample: on the exact string `"Hello world. Bye."` the
code returns 17 characters and 3 whitespace-delimited words, not the
claimed 18 and 4 (the sentence count 2 is right). -/
theorem c3_counterexample :
    get_text_stats "Hello world. Bye.".data ≠ ⟨18, 4, 2⟩ := by decide

/-- C3 (amended): `get_text_stats("Hello world. Bye.")` returns
`characters = 17`, `words = 3`, `sentences = 2`. -/
theorem c3_stats_value :
    get_text_stats "Hello world. Bye.".data = ⟨17, 3, 2⟩ := by decide

/-! ## Word-level lemmas: `pySplit`, `joinSp` -/

theorem pySplit_nil : pySplit [] = [] := rfl

theorem pySplitAux_append_ws (cs : Str) (c : Char) (b : Str) (acc : Str)
    (hc : isWS c = true) :
    pySplitAux (cs ++ c :: b) acc = pySplitAux cs acc ++ pySplitAux b [] := by
  induction cs generalizing acc with
  | nil => simp [pySplitAux, hc]
  | cons d rest ih =>
    by_cases hd : isWS d = true
    · simp only [List.cons_append, pySplitAux, hd, if_true]
      rw [show rest.append (c :: b) = rest ++ c :: b from rfl, ih, List.append_assoc]
    · rw [Bool.not_eq_true] at hd
      simp only [List.cons_append, pySplitAux, hd, Bool.false_eq_true, if_false]
      rw [show rest.append (c :: b) = rest ++ c :: b from rfl, ih]

theorem pySplit_append_ws (a : Str) (c : Char) (b : Str) (hc : isWS c = true) :
    pySplit (a ++ c :: b) = pySplit a ++ pySplit b :=
  pySplitAux_append_ws a c b [] hc

theorem pySplit_flatten_joinSp (L : List Str) :
    pySplit (joinSp L) = (L.map pySplit).flatten := by
  induction L with
  | nil => rfl
  | cons s rest ih =>
    cases rest with
    | nil => simp [joinSp]
    | cons t rest2 =>
      show pySplit (s ++ ' ' :: joinSp (t :: rest2)) = _
      rw [pySplit_append_ws s ' ' _ (by decide), ih]
      simp

theorem pySplitAux_no_ws (cs : Str) (acc : Str) (h : ∀ ch ∈ cs, isWS ch = false) :
    pySplitAux cs acc = flushOpt (cs.reverse ++ acc) := by
  induction cs generalizing acc with
  | nil => simp [pySplitAux]
  | cons c rest ih =>
    have hc : isWS c = false := h c (by simp)
    simp only [pySplitAux, hc, Bool.false_eq_true, if_false]
    rw [ih _ (fun ch hch => h ch (by simp [hch]))]
    simp [List.append_assoc]

theorem pySplit_single (w : Str) (hne : w ≠ []) (h : ∀ ch ∈ w, isWS ch = false) :
    pySplit w = [w] := by
  show pySplitAux w [] = [w]
  rw [pySplitAux_no_ws w [] h]
  have : w.reverse ≠ [] := by simpa [List.reverse_eq_nil_iff] using hne
  simp [flushOpt, List.isEmpty_eq_false.mpr this]

theorem pySplitAux_mem (cs : Str) (acc w : Str) (hacc : ∀ ch ∈ acc, isWS ch = false)
    (hw : w ∈ pySplitAux cs acc) : w ≠ [] ∧ ∀ ch ∈ w, isWS ch = false := by
  induction cs generalizing acc with
  | nil =>
    simp only [pySplitAux, flushOpt] at hw
    by_cases hacc0 : acc.isEmpty = true
    · simp [hacc0] at hw
    · simp only [hacc0, Bool.false_eq_true, if_false, List.mem_singleton] at hw
      subst hw
      refine ⟨?_, ?_⟩
      · rw [Ne, List.reverse_eq_nil_iff]
        simpa [List.isEmpty_eq_false, Ne] using hacc0
      · intro ch hch
        exact hacc ch (List.mem_reverse.mp hch)
  | cons c rest ih =>
    by_cases hc : isWS c = true
    · simp only [pySplitAux, hc, if_true, List.mem_append] at hw
      rcases hw with hw | hw
      · simp only [flushOpt] at hw
        by_cases hacc0 : acc.isEmpty = true
        · simp [hacc0] at hw
        · simp only [hacc0, Bool.false_eq_true, if_false, List.mem_singleton] at hw
          subst hw
          refine ⟨?_, ?_⟩
          · rw [Ne, List.reverse_eq_nil_iff]
            simpa [List.isEmpty_eq_false, Ne] using hacc0
          · intro ch hch
            exact hacc ch (List.mem_reverse.mp hch)
      · exact ih [] (by simp) hw
    · rw [Bool.not_eq_true] at hc
      simp only [pySplitAux, hc, Bool.false_eq_true, if_false] at hw
      refine ih (c :: acc) ?_ hw
      intro ch hch
      rcases List.mem_cons.mp hch with rfl | hch
      · exact hc
      · exact hacc ch hch

theorem pySplit_mem (s w : Str) (hw : w ∈ pySplit s) :
    w ≠ [] ∧ ∀ ch ∈ w, isWS ch = false :=
  pySplitAux_mem s [] w (by simp) hw

theorem flatten_map_pySplit_self (L : List Str) (h : ∀ w ∈ L, pySplit w = [w]) :
    (L.map pySplit).flatten = L := by
  induction L with
  | nil => rfl
  | cons w rest ih =>
    simp only [List.map_cons, List.flatten_cons, h w (by simp)]
    rw [ih (fun v hv => h v (by simp [hv]))]
    rfl

theorem pySplit_allws (s : Str) (h : ∀ ch ∈ s, isWS ch = true) : pySplit s = [] := by
  induction s with
  | nil => rfl
  | cons c rest ih =>
    show pySplitAux (c :: rest) [] = []
    simp only [pySplitAux, h c (by simp), if_true]
    rw [show flushOpt [] = [] from rfl, List.nil_append]
    exact ih (fun ch hch => h ch (by simp [hch]))

theorem pySplit_append_allws (a run : Str) (h : ∀ ch ∈ run, isWS ch = true) :
    pySplit (a ++ run) = pySplit a := by
  cases run with
  | nil => simp
  | cons c rest =>
    rw [pySplit_append_ws a c rest (h c (by simp))]
    rw [pySplit_allws rest (fun ch hch => h ch (by simp [hch]))]
    simp

theorem pySplit_dropWhile (s : Str) : pySplit (s.dropWhile isWS) = pySplit s := by
  induction s with
  | nil => rfl
  | cons c rest ih =>
    by_cases hc : isWS c = true
    · rw [List.dropWhile_cons, hc, if_pos rfl, ih]
      show pySplit rest = pySplitAux (c :: rest) []
      simp [pySplitAux, hc, flushOpt]
      rfl
    · rw [Bool.not_eq_true] at hc
      simp [List.dropWhile_cons, hc]

theorem pySplit_strip (s : Str) : pySplit (strip s) = pySplit s := by
  have hws : ∀ ch ∈ ((s.dropWhile isWS).reverse.takeWhile isWS).reverse, isWS ch = true :=
    fun ch hch => List.mem_takeWhile_imp (List.mem_reverse.mp hch)
  have h1 : pySplit (strip s)
      = pySplit (strip s ++ ((s.dropWhile isWS).reverse.takeWhile isWS).reverse) :=
    (pySplit_append_allws _ _ hws).symm
  have h2 : strip s ++ ((s.dropWhile isWS).reverse.takeWhile isWS).reverse
      = s.dropWhile isWS := by
    show ((s.dropWhile isWS).reverse.dropWhile isWS).reverse ++ _ = _
    rw [← List.reverse_append, List.takeWhile_append_dropWhile, List.reverse_reverse]
  rw [h1, h2, pySplit_dropWhile]

theorem joinSp_cons_cons (s t : Str) (rest : List Str) :
    joinSp (s :: t :: rest) = s ++ ' ' :: joinSp (t :: rest) := rfl

theorem joinSp_append (A B : List Str) (hA : A ≠ []) (hB : B ≠ []) :
    joinSp (A ++ B) = joinSp A ++ ' ' :: joinSp B := by
  induction A with
  | nil => exact absurd rfl hA
  | cons a A2 ih =>
    cases A2 with
    | nil =>
      cases B with
      | nil => exact absurd rfl hB
      | cons b B2 =>
        rw [List.singleton_append, joinSp_cons_cons]
        rfl
    | cons a2 A3 =>
      rw [List.cons_append, List.cons_append, joinSp_cons_cons, ← List.cons_append,
          ih (by simp), joinSp_cons_cons]
      simp [List.append_assoc]

theorem flatten_map_pySplit_emit (cur : List Str) :
    ((emit cur).map pySplit).flatten = (cur.map pySplit).flatten := by
  by_cases hcur : cur.isEmpty = true
  · rw [List.isEmpty_iff] at hcur
    subst hcur
    rfl
  · simp only [emit, hcur, Bool.false_eq_true, if_false, List.map_cons, List.map_nil,
      List.flatten_cons, List.flatten_nil, List.append_nil]
    exact pySplit_flatten_joinSp cur

theorem flatten_map_pySplit_packWords (N : Nat) (ws temp : List Str) (size : Nat)
    (hws : ∀ w ∈ ws, pySplit w = [w]) (htemp : ∀ w ∈ temp, pySplit w = [w]) :
    ((packWords N ws temp size).map pySplit).flatten = temp ++ ws := by
  induction ws generalizing temp size with
  | nil =>
    rw [packWords, flatten_map_pySplit_emit, flatten_map_pySplit_self temp htemp,
        List.append_nil]
  | cons w rest ih =>
    rw [packWords]
    by_cases hfit : size + w.length + 1 ≤ N
    · rw [if_pos hfit, ih _ _ (fun v hv => hws v (by simp [hv]))
        (by
          intro v hv
          rcases List.mem_append.mp hv with hv | hv
          · exact htemp v hv
          · rw [List.mem_singleton] at hv
            subst hv
            exact hws v (by simp))]
      simp
    · rw [if_neg hfit, List.map_append, List.flatten_append,
          flatten_map_pySplit_emit, flatten_map_pySplit_self temp htemp,
          ih _ _ (fun v hv => hws v (by simp [hv]))
            (by
              intro v hv
              rw [List.mem_singleton] at hv
              subst hv
              exact hws v (by simp))]
      simp

theorem flatten_map_pySplit_chunkLoop (N : Nat) (S cur : List Str) (size : Nat) :
    ((chunkLoop N S cur size).map pySplit).flatten
      = (cur.map pySplit).flatten ++ ((S.map (fun s => pySplit (strip s))).flatten) := by
  induction S generalizing cur size with
  | nil =>
    rw [chunkLoop, flatten_map_pySplit_emit]
    simp
  | cons s rest ih =>
    rw [chunkLoop]
    by_cases hblank : (strip s).isEmpty = true
    · rw [if_pos hblank, ih]
      rw [List.isEmpty_iff] at hblank
      simp [hblank, pySplit_nil]
    · rw [if_neg (by simp [hblank])]
      by_cases hover : N < (strip s).length
      · rw [if_pos hover]
        rw [List.map_append, List.map_append, List.flatten_append, List.flatten_append,
            flatten_map_pySplit_emit, ih,
            flatten_map_pySplit_packWords N _ [] 0
              (fun w hw => pySplit_single w (pySplit_mem _ w hw).1 (pySplit_mem _ w hw).2)
              (by simp)]
        simp [pySplit_strip]
      · rw [if_neg hover]
        by_cases hfit : size + (strip s).length + 1 ≤ N
        · rw [if_pos hfit, ih]
          simp [pySplit_strip]
        · rw [if_neg hfit, List.map_append, List.flatten_append,
              flatten_map_pySplit_emit, ih]
          simp [pySplit_strip]

theorem flatten_map_pySplit_sentenceSplitAux (cs : Str) (skip : Bool) (acc : Str)
    (hskip : skip = true → acc = []) :
    ((sentenceSplitAux skip cs acc).map pySplit).flatten = pySplit (acc.reverse ++ cs) := by
  induction cs generalizing skip acc with
  | nil => simp [sentenceSplitAux]
  | cons c rest ih =>
    rw [sentenceSplitAux]
    by_cases h1 : (skip && isWS c) = true
    · rw [if_pos h1]
      have hsk : skip = true := by
        cases skip
        · simp at h1
        · rfl
      have hacc : acc = [] := hskip hsk
      subst hacc
      rw [ih true [] (fun _ => rfl)]
      have hc : isWS c = true := by
        cases hw : isWS c
        · rw [hw] at h1
          simp at h1
        · rfl
      rw [List.reverse_nil, List.nil_append, List.nil_append]
      show pySplit rest = pySplit ([] ++ c :: rest)
      rw [pySplit_append_ws [] c rest hc]
      rfl
    · rw [if_neg h1]
      by_cases h2 : (isWS c && prevPunct acc) = true
      · rw [if_pos h2]
        have hc : isWS c = true := by
          cases hw : isWS c
          · rw [hw] at h2
            simp at h2
          · rfl
        rw [List.map_cons, List.flatten_cons, ih true [] (fun _ => rfl)]
        rw [List.reverse_nil, List.nil_append]
        rw [pySplit_append_ws acc.reverse c rest hc]
      · rw [if_neg h2]
        rw [ih false (c :: acc) (by intro h; exact absurd h (by simp))]
        simp [List.append_assoc]

/-! ## C2: word-sequence preservation by chunking -/

/-- C2 counterexample: `"ab  cd"` is a single sentence (no sentence
boundary), yet rejoining its chunks drops one of the two interior
spaces, so the rejoin differs from the original by whitespace that is
not at any sentence boundary. -/
theorem c2_counterexample :
    sentenceSplit "ab  cd".data = ["ab  cd".data] ∧
    combine_chunks (split_into_chunks "ab  cd".data 5) ≠ "ab  cd".data := by
  constructor
  · decide
  · decide

/-- C2 (amended): for every text and every max size, rejoining the
chunks with single spaces preserves the whitespace-delimited word
sequence of the original text exactly — no non-whitespace characters
are added, dropped or reordered; only whitespace is normalized (at
sentence boundaries, at the text's ends, and between words of sentences
longer than the limit). -/
theorem c2_words_preserved (text : Str) (N : Nat) :
    pySplit (combine_chunks (split_into_chunks text N)) = pySplit text := by
  by_cases htext : text.isEmpty = true
  · rw [List.isEmpty_iff] at htext
    subst htext
    rfl
  · rw [split_into_chunks, if_neg htext]
    show pySplit (joinSp (chunkLoop N (sentenceSplit text) [] 0)) = pySplit text
    rw [pySplit_flatten_joinSp, flatten_map_pySplit_chunkLoop]
    simp only [List.map_nil, List.flatten_nil, List.nil_append]
    have h3 := flatten_map_pySplit_sentenceSplitAux text false []
      (fun hh => Bool.noConfusion hh)
    rw [List.reverse_nil, List.nil_append] at h3
    rw [← h3]
    congr 1
    exact List.map_congr_left (fun s _ => pySplit_strip s)

/-! ## C8: when the chunk list is empty -/

theorem pySplitAux_ne_nil (cs : Str) (acc : Str) (h : acc ≠ []) :
    pySplitAux cs acc ≠ [] := by
  induction cs generalizing acc with
  | nil => simp [pySplitAux, flushOpt, List.isEmpty_eq_false.mpr h]
  | cons c rest ih =>
    by_cases hc : isWS c = true
    · simp [pySplitAux, hc, flushOpt, List.isEmpty_eq_false.mpr h]
    · rw [Bool.not_eq_true] at hc
      simp only [pySplitAux, hc, Bool.false_eq_true, if_false]
      exact ih (c :: acc) (by simp)

theorem pySplit_eq_nil_allws (s : Str) (h : pySplit s = []) : ∀ c ∈ s, isWS c = true := by
  induction s with
  | nil => simp
  | cons c rest ih =>
    by_cases hc : isWS c = true
    · have hrest : pySplit rest = [] := by
        show pySplitAux rest [] = []
        have : pySplitAux (c :: rest) [] = [] := h
        simpa [pySplitAux, hc, flushOpt] using this
      intro d hd
      rcases List.mem_cons.mp hd with rfl | hd
      · exact hc
      · exact ih hrest d hd
    · exfalso
      rw [Bool.not_eq_true] at hc
      have : pySplitAux (c :: rest) [] = [] := h
      simp only [pySplitAux, hc, Bool.false_eq_true, if_false] at this
      exact pySplitAux_ne_nil rest [c] (by simp) this

theorem allws_strip_nil (s : Str) (h : ∀ c ∈ s, isWS c = true) : strip s = [] := by
  have h1 : s.dropWhile isWS = [] := List.dropWhile_eq_nil_iff.mpr h
  show ((s.dropWhile isWS).reverse.dropWhile isWS).reverse = []
  rw [h1]
  rfl

theorem strip_nil_allws (s : Str) (h : strip s = []) : ∀ c ∈ s, isWS c = true := by
  have h2 : (s.dropWhile isWS).reverse.dropWhile isWS = [] :=
    List.reverse_eq_nil_iff.mp h
  have h4 : ∀ c ∈ s.dropWhile isWS, isWS c = true := fun c hc =>
    List.dropWhile_eq_nil_iff.mp h2 c (List.mem_reverse.mpr hc)
  intro c hc
  rw [← List.takeWhile_append_dropWhile (p := isWS) (l := s)] at hc
  rcases List.mem_append.mp hc with h5 | h5
  · exact List.mem_takeWhile_imp h5
  · exact h4 c h5

theorem chunkLoop_blank (N : Nat) (S : List Str) (cur : List Str) (size : Nat)
    (h : ∀ s ∈ S, strip s = []) : chunkLoop N S cur size = emit cur := by
  induction S generalizing cur size with
  | nil => rfl
  | cons s rest ih =>
    rw [chunkLoop, if_pos (by simp [h s (by simp)])]
    exact ih _ _ (fun t ht => h t (by simp [ht]))

theorem sentenceSplitAux_mem_chars (cs : Str) (skip : Bool) (acc : Str) (seg : Str)
    (hseg : seg ∈ sentenceSplitAux skip cs acc) :
    ∀ c ∈ seg, c ∈ acc ∨ c ∈ cs := by
  induction cs generalizing skip acc with
  | nil =>
    simp only [sentenceSplitAux, List.mem_singleton] at hseg
    subst hseg
    intro c hc
    exact Or.inl (List.mem_reverse.mp hc)
  | cons d rest ih =>
    rw [sentenceSplitAux] at hseg
    by_cases h1 : (skip && isWS d) = true
    · rw [if_pos h1] at hseg
      intro c hc
      rcases ih _ _ hseg c hc with h | h
      · exact Or.inl h
      · exact Or.inr (by simp [h])
    · rw [if_neg h1] at hseg
      by_cases h2 : (isWS d && prevPunct acc) = true
      · rw [if_pos h2] at hseg
        rcases List.mem_cons.mp hseg with rfl | hseg
        · intro c hc
          exact Or.inl (List.mem_reverse.mp hc)
        · intro c hc
          rcases ih _ _ hseg c hc with h | h
          · simp at h
          · exact Or.inr (by simp [h])
      · rw [if_neg h2] at hseg
        intro c hc
        rcases ih _ _ hseg c hc with h | h
        · rcases List.mem_cons.mp h with rfl | h
          · exact Or.inr (by simp)
          · exact Or.inl h
        · exact Or.inr (by simp [h])

/-- C8 counterexample: the whitespace-only text `" "` is nonempty, yet
`split_into_chunks` returns the empty list for it. -/
theorem c8_counterexample :
    " ".data ≠ [] ∧ split_into_chunks " ".data 5 = [] := by
  constructor
  · decide
  · decide

/-- C8 (amended): the chunk list is empty exactly when the text is empty
or whitespace-only (`strip text = []`); every text containing a
non-whitespace character yields at least one chunk.  (The embedding is a
total structurally recursive function, witnessing termination.) -/
theorem c8_chunks_empty_iff (text : Str) (N : Nat) :
    split_into_chunks text N = [] ↔ strip text = [] := by
  by_cases htext : text.isEmpty = true
  · rw [List.isEmpty_iff] at htext
    subst htext
    exact ⟨fun _ => rfl, fun _ => rfl⟩
  · rw [split_into_chunks, if_neg htext]
    constructor
    · intro h
      apply allws_strip_nil
      apply pySplit_eq_nil_allws
      have h2 := flatten_map_pySplit_chunkLoop N (sentenceSplit text) [] 0
      rw [h] at h2
      have h4 : (List.map (fun s => pySplit (strip s)) (sentenceSplit text)).flatten = [] := by
        simpa using h2.symm
      have h3 := flatten_map_pySplit_sentenceSplitAux text false []
        (fun hh => Bool.noConfusion hh)
      rw [List.reverse_nil, List.nil_append,
          show sentenceSplitAux false text [] = sentenceSplit text from rfl] at h3
      have h5 : List.map pySplit (sentenceSplit text)
          = List.map (fun s => pySplit (strip s)) (sentenceSplit text) :=
        List.map_congr_left (fun s _ => (pySplit_strip s).symm)
      rw [← h3, h5, h4]
    · intro h
      rw [chunkLoop_blank N _ [] 0 ?_]
      · rfl
      · intro s hs
        apply allws_strip_nil
        intro c hc
        rcases sentenceSplitAux_mem_chars text false [] s hs c hc with h5 | h5
        · simp at h5
        · exact strip_nil_allws text h c h5

/-! ## C1: chunk size bound -/

theorem joinSp_singleton (s : Str) : joinSp [s] = s := rfl

theorem emit_mem_bound (N : Nat) (cur : List Str) (size : Nat) (c : Str)
    (hinv : (cur = [] ∧ size = 0) ∨ (cur ≠ [] ∧ (joinSp cur).length ≤ size ∧ size ≤ N))
    (hc : c ∈ emit cur) : c.length ≤ N := by
  rcases hinv with ⟨h1, _⟩ | ⟨h1, h2, h3⟩
  · subst h1
    simp [emit] at hc
  · rw [emit, if_neg (by simpa [List.isEmpty_iff] using h1)] at hc
    rw [List.mem_singleton] at hc
    subst hc
    exact le_trans h2 h3

theorem packWords_chunk_bound (N : Nat) (ws : List Str) (temp : List Str) (size : Nat)
    (c : Str)
    (hws : ∀ w ∈ ws, ∀ ch ∈ w, isWS ch = false)
    (htemp : ∀ w ∈ temp, ∀ ch ∈ w, isWS ch = false)
    (hinv : (temp = [] ∧ size = 0)
      ∨ (temp ≠ [] ∧ (joinSp temp).length ≤ size ∧ (size ≤ N ∨ ∃ w, temp = [w])))
    (hc : c ∈ packWords N ws temp size) :
    c.length ≤ N ∨ ∀ ch ∈ c, isWS ch = false := by
  induction ws generalizing temp size with
  | nil =>
    rw [packWords] at hc
    rcases hinv with ⟨h1, _⟩ | ⟨h1, h2, h3⟩
    · subst h1
      simp [emit] at hc
    · rw [emit, if_neg (by simpa [List.isEmpty_iff] using h1)] at hc
      rw [List.mem_singleton] at hc
      subst hc
      rcases h3 with h3 | ⟨w, rfl⟩
      · exact Or.inl (le_trans h2 h3)
      · right
        intro ch hch
        exact htemp w (by simp) ch (by simpa [joinSp_singleton] using hch)
  | cons w rest ih =>
    rw [packWords] at hc
    by_cases hfit : size + w.length + 1 ≤ N
    · rw [if_pos hfit] at hc
      refine ih _ _ (fun v hv => hws v (by simp [hv])) (fun v hv => ?_) ?_ hc
      · rcases List.mem_append.mp hv with hv | hv
        · exact htemp v hv
        · rw [List.mem_singleton] at hv
          subst hv
          exact hws v (by simp)
      · right
        refine ⟨by simp, ?_, Or.inl hfit⟩
        rcases hinv with ⟨h1, h2⟩ | ⟨h1, h2, _⟩
        · subst h1 h2
          rw [List.nil_append, joinSp_singleton]
          omega
        · rw [joinSp_append temp [w] h1 (by simp), joinSp_singleton]
          simp only [List.length_append, List.length_cons]
          omega
    · rw [if_neg hfit] at hc
      rcases List.mem_append.mp hc with hc | hc
      · rcases hinv with ⟨h1, _⟩ | ⟨h1, h2, h3⟩
        · subst h1
          simp [emit] at hc
        · rw [emit, if_neg (by simpa [List.isEmpty_iff] using h1)] at hc
          rw [List.mem_singleton] at hc
          subst hc
          rcases h3 with h3 | ⟨w2, rfl⟩
          · exact Or.inl (le_trans h2 h3)
          · right
            intro ch hch
            exact htemp w2 (by simp) ch (by simpa [joinSp_singleton] using hch)
      · refine ih _ _ (fun v hv => hws v (by simp [hv]))
          (fun v hv => by rw [List.mem_singleton] at hv; subst hv; exact hws v (by simp))
          ?_ hc
        right
        exact ⟨by simp, by rw [joinSp_singleton], Or.inr ⟨w, rfl⟩⟩

theorem chunkLoop_chunk_bound (N : Nat) (S : List Str) (cur : List Str) (size : Nat)
    (c : Str)
    (hinv : (cur = [] ∧ size = 0) ∨ (cur ≠ [] ∧ (joinSp cur).length ≤ size ∧ size ≤ N))
    (hc : c ∈ chunkLoop N S cur size) :
    c.length ≤ N ∨ ∀ ch ∈ c, isWS ch = false := by
  induction S generalizing cur size with
  | nil =>
    rw [chunkLoop] at hc
    exact Or.inl (emit_mem_bound N cur size c hinv hc)
  | cons s rest ih =>
    rw [chunkLoop] at hc
    by_cases hblank : (strip s).isEmpty = true
    · rw [if_pos hblank] at hc
      exact ih _ _ hinv hc
    · rw [if_neg hblank] at hc
      by_cases hover : N < (strip s).length
      · rw [if_pos hover] at hc
        rcases List.mem_append.mp hc with hc2 | hc2
        · rcases List.mem_append.mp hc2 with hc3 | hc3
          · exact Or.inl (emit_mem_bound N cur size c hinv hc3)
          · exact packWords_chunk_bound N _ [] 0 c
              (fun w hw => (pySplit_mem _ w hw).2) (by simp) (Or.inl ⟨rfl, rfl⟩) hc3
        · exact ih [] 0 (Or.inl ⟨rfl, rfl⟩) hc2
      · rw [if_neg hover] at hc
        by_cases hfit : size + (strip s).length + 1 ≤ N
        · rw [if_pos hfit] at hc
          refine ih _ _ (Or.inr ⟨by simp, ?_, hfit⟩) hc
          rcases hinv with ⟨h1, h2⟩ | ⟨h1, h2, _⟩
          · subst h1 h2
            rw [List.nil_append, joinSp_singleton]
            omega
          · rw [joinSp_append cur [strip s] h1 (by simp), joinSp_singleton]
            simp only [List.length_append, List.length_cons]
            omega
        · rw [if_neg hfit] at hc
          rcases List.mem_append.mp hc with hc2 | hc2
          · exact Or.inl (emit_mem_bound N cur size c hinv hc2)
          · exact ih [(strip s)] (strip s).length
              (Or.inr ⟨by simp, by rw [joinSp_singleton], Nat.le_of_not_lt hover⟩) hc2

/-- C1: every chunk respects the size limit, except that an oversized
chunk is always a single whitespace-free word (longer than the limit);
words are never split. -/
theorem c1_chunk_size_bound (text : Str) (N : Nat) (c : Str) (hN : 1 ≤ N)
    (hc : c ∈ split_into_chunks text N) :
    c.length ≤ N ∨ (N < c.length ∧ ∀ ch ∈ c, isWS ch = false) := by
  rw [split_into_chunks] at hc
  by_cases htext : text.isEmpty = true
  · rw [if_pos htext] at hc
    simp at hc
  · rw [if_neg htext] at hc
    rcases chunkLoop_chunk_bound N _ [] 0 c (Or.inl ⟨rfl, rfl⟩) hc with h | h
    · exact Or.inl h
    · by_cases hlen : c.length ≤ N
      · exact Or.inl hlen
      · exact Or.inr ⟨Nat.lt_of_not_le hlen, h⟩

theorem c1_chunk_size_bound_witness :
    1 ≤ 3 ∧ "aaaa".data ∈ split_into_chunks "aaaa bb.".data 3 ∧
    ("aaaa".data.length ≤ 3 ∨
      (3 < "aaaa".data.length ∧ ∀ ch ∈ "aaaa".data, isWS ch = false)) :=
  ⟨by decide, by decide,
   c1_chunk_size_bound "aaaa bb.".data 3 "aaaa".data (by decide) (by decide)⟩

/-! ## Invariants of the sentence split -/

theorem noPW_cons_cons (c d : Char) (rest : Str) :
    noPW (c :: d :: rest) = (!(isPunct c && isWS d) && noPW (d :: rest)) := rfl

theorem punct_not_ws (c : Char) (h : isPunct c = true) : isWS c = false := by
  simp only [isPunct, Bool.or_eq_true, decide_eq_true_eq] at h
  rcases h with (h | h) | h <;> subst h <;> decide

theorem prevPunct_append (xs : Str) (a : Char) (h : xs ≠ []) :
    prevPunct (xs ++ [a]) = prevPunct xs := by
  cases xs with
  | nil => exact absurd rfl h
  | cons x rest => rfl

theorem noPW_snoc (xs : Str) (c : Char) :
    noPW (xs ++ [c]) = (noPW xs && !(prevPunct xs.reverse && isWS c)) := by
  induction xs with
  | nil => simp [noPW, prevPunct]
  | cons a rest ih =>
    cases rest with
    | nil => simp [noPW, prevPunct]
    | cons b rest2 =>
      simp only [List.cons_append, noPW_cons_cons]
      rw [show b :: (rest2 ++ [c]) = (b :: rest2) ++ [c] from rfl, ih]
      have hpp : prevPunct ((a :: b :: rest2).reverse) = prevPunct ((b :: rest2).reverse) := by
        rw [show (a :: b :: rest2).reverse = (b :: rest2).reverse ++ [a] by simp]
        exact prevPunct_append _ a (by simp)
      rw [hpp, Bool.and_assoc]

theorem sentenceSplitAux_ne_nil (cs : Str) (skip : Bool) (acc : Str) :
    sentenceSplitAux skip cs acc ≠ [] := by
  induction cs generalizing skip acc with
  | nil => simp [sentenceSplitAux]
  | cons c rest ih =>
    rw [sentenceSplitAux]
    by_cases h1 : (skip && isWS c) = true
    · rw [if_pos h1]
      exact ih _ _
    · rw [if_neg h1]
      by_cases h2 : (isWS c && prevPunct acc) = true
      · rw [if_pos h2]
        simp
      · rw [if_neg h2]
        exact ih _ _

theorem noPW_mem_sentenceSplitAux (cs : Str) (skip : Bool) (acc : Str) (seg : Str)
    (hacc : noPW acc.reverse = true) (hseg : seg ∈ sentenceSplitAux skip cs acc) :
    noPW seg = true := by
  induction cs generalizing skip acc with
  | nil =>
    simp only [sentenceSplitAux, List.mem_singleton] at hseg
    subst hseg
    exact hacc
  | cons c rest ih =>
    rw [sentenceSplitAux] at hseg
    by_cases h1 : (skip && isWS c) = true
    · rw [if_pos h1] at hseg
      exact ih _ _ hacc hseg
    · rw [if_neg h1] at hseg
      by_cases h2 : (isWS c && prevPunct acc) = true
      · rw [if_pos h2] at hseg
        rcases List.mem_cons.mp hseg with rfl | hseg
        · exact hacc
        · exact ih _ _ (by rfl) hseg
      · rw [if_neg h2] at hseg
        refine ih _ _ ?_ hseg
        rw [List.reverse_cons, noPW_snoc, List.reverse_reverse, hacc, Bool.true_and]
        by_cases hw : isWS c = true
        · have hp : prevPunct acc = false := by
            cases hpp : prevPunct acc
            · rfl
            · exfalso
              exact h2 (by rw [hw, hpp]; rfl)
          rw [hp]
          rfl
        · rw [Bool.not_eq_true] at hw
          rw [hw, Bool.and_false]
          rfl

theorem chainPunct_cons (x : Str) (L : List Str) (h : L ≠ []) :
    chainPunct (x :: L) = (endsPunct x && chainPunct L) := by
  cases L with
  | nil => exact absurd rfl h
  | cons y rest => rfl

theorem endsPunct_reverse_of_prevPunct (acc : Str) (h : prevPunct acc = true) :
    endsPunct acc.reverse = true := by
  cases acc with
  | nil => exact absurd h (by simp [prevPunct])
  | cons p rest =>
    rw [endsPunct, List.getLast?_reverse]
    exact h

theorem chainPunct_sentenceSplitAux (cs : Str) (skip : Bool) (acc : Str) :
    chainPunct (sentenceSplitAux skip cs acc) = true := by
  induction cs generalizing skip acc with
  | nil => rfl
  | cons c rest ih =>
    rw [sentenceSplitAux]
    by_cases h1 : (skip && isWS c) = true
    · rw [if_pos h1]
      exact ih _ _
    · rw [if_neg h1]
      by_cases h2 : (isWS c && prevPunct acc) = true
      · rw [if_pos h2]
        have h2' : isWS c = true ∧ prevPunct acc = true := by simpa using h2
        rw [chainPunct_cons _ _ (sentenceSplitAux_ne_nil rest true [])]
        rw [endsPunct_reverse_of_prevPunct acc h2'.2, Bool.true_and]
        exact ih _ _
      · rw [if_neg h2]
        exact ih _ _

theorem endsPunct_strip_ne_nil (s : Str) (h : endsPunct s = true) : strip s ≠ [] := by
  intro hnil
  rw [endsPunct] at h
  cases hlast : s.getLast? with
  | none => rw [hlast] at h; exact Bool.noConfusion h
  | some p =>
    rw [hlast] at h
    have hmem : p ∈ s := List.mem_of_mem_getLast? (by rw [hlast]; rfl)
    have hws := strip_nil_allws s hnil p hmem
    rw [punct_not_ws p h] at hws
    exact Bool.noConfusion hws

theorem filter_stripEmpty_le_one (L : List Str) (h : chainPunct L = true) :
    (L.filter (fun s => (strip s).isEmpty)).length ≤ 1 := by
  induction L with
  | nil => simp
  | cons s rest ih =>
    cases rest with
    | nil =>
      exact le_trans (List.length_filter_le _ [s]) (by simp)
    | cons t rest2 =>
      rw [chainPunct_cons s _ (by simp)] at h
      simp only [Bool.and_eq_true] at h
      obtain ⟨hs, hrest⟩ := h
      rw [List.filter_cons,
          if_neg (by simp [List.isEmpty_iff]; exact endsPunct_strip_ne_nil s hs)]
      exact ih hrest

theorem length_filter_add_length_filter_not (L : List Str) (p : Str → Bool) :
    (L.filter p).length + (L.filter (fun a => !p a)).length = L.length := by
  induction L with
  | nil => rfl
  | cons a rest ih =>
    cases hp : p a with
    | true => simp [List.filter_cons, hp, ← ih]; omega
    | false => simp [List.filter_cons, hp, ← ih]; omega

/-! ## C4: the sentence counter of `get_text_stats` -/

/-- C4 counterexample: on `"Hi. "` the regex split yields
`["Hi.", ""]`, so `get_text_stats` counts 2 sentences while the number
of non-empty segments — and the number of trimmed non-empty sentences
the chunker processes — is 1. -/
theorem c4_counterexample :
    (get_text_stats "Hi. ".data).sentences = 2 ∧
    ((sentenceSplit "Hi. ".data).filter (fun s => !s.isEmpty)).length = 1 ∧
    (cleanSents "Hi. ".data).length = 1 := by
  refine ⟨by decide, by decide, by decide⟩

/-- C4 (amended): for nonempty text, the `sentences` field counts ALL
segments of the sentence-boundary split, i.e. the number of trimmed
non-empty sentences the chunker processes plus the number of segments
that trim to empty — and at most one segment (the final one) can trim
to empty, so the two counts differ by at most one. -/
theorem c4_sentence_count (text : Str) (h : text ≠ []) :
    (get_text_stats text).sentences
      = (cleanSents text).length
        + ((sentenceSplit text).filter (fun s => (strip s).isEmpty)).length
    ∧ ((sentenceSplit text).filter (fun s => (strip s).isEmpty)).length ≤ 1 := by
  constructor
  · rw [get_text_stats, if_neg (by simpa [List.isEmpty_iff] using h)]
    show (sentenceSplit text).length = _
    rw [cleanSents, List.filter_map, List.length_map]
    have hcomp : List.filter ((fun s => !s.isEmpty) ∘ strip) (sentenceSplit text)
        = List.filter (fun s => !(strip s).isEmpty) (sentenceSplit text) := rfl
    rw [hcomp]
    rw [← length_filter_add_length_filter_not (sentenceSplit text)
          (fun s => (strip s).isEmpty)]
    omega
  · exact filter_stripEmpty_le_one _ (chainPunct_sentenceSplitAux text false [])

theorem c4_sentence_count_witness :
    "Hi. ".data ≠ [] ∧
    ((get_text_stats "Hi. ".data).sentences
      = (cleanSents "Hi. ".data).length
        + ((sentenceSplit "Hi. ".data).filter (fun s => (strip s).isEmpty)).length
    ∧ ((sentenceSplit "Hi. ".data).filter (fun s => (strip s).isEmpty)).length ≤ 1) :=
  ⟨by decide, c4_sentence_count "Hi. ".data (by decide)⟩

/-! ## Structure of `strip` and `noPW` -/

theorem dropWhile_startsNonWS (l : Str) : startsNonWS (l.dropWhile isWS) = true := by
  induction l with
  | nil => rfl
  | cons c rest ih =>
    rw [List.dropWhile_cons]
    by_cases hc : isWS c = true
    · rw [if_pos hc]
      exact ih
    · rw [Bool.not_eq_true] at hc
      rw [hc]
      simp [startsNonWS, hc]

theorem startsNonWS_strip_reverse (s : Str) : startsNonWS (strip s).reverse = true := by
  show startsNonWS (((s.dropWhile isWS).reverse.dropWhile isWS).reverse).reverse = true
  rw [List.reverse_reverse]
  exact dropWhile_startsNonWS _

theorem startsNonWS_strip (s : Str) : startsNonWS (strip s) = true := by
  show startsNonWS (((s.dropWhile isWS).reverse.dropWhile isWS).reverse) = true
  have hu := dropWhile_startsNonWS s
  cases hu2 : s.dropWhile isWS with
  | nil => rfl
  | cons c r =>
    rw [hu2] at hu
    have hc : isWS c = false := by
      simpa [startsNonWS] using hu
    rw [List.reverse_cons, List.dropWhile_append]
    by_cases hre : (r.reverse.dropWhile isWS).isEmpty = true
    · rw [if_pos hre]
      simp [List.dropWhile_cons, hc, startsNonWS]
    · rw [if_neg hre]
      rw [List.reverse_append]
      simp [startsNonWS, hc]

theorem strip_eq_self (s : Str) (h1 : startsNonWS s = true)
    (h2 : startsNonWS s.reverse = true) : strip s = s := by
  have hd : s.dropWhile isWS = s := by
    cases s with
    | nil => rfl
    | cons c r =>
      rw [List.dropWhile_cons, if_neg]
      simp only [startsNonWS, Bool.not_eq_true'] at h1
      rw [h1]
      simp
  have hd2 : s.reverse.dropWhile isWS = s.reverse := by
    cases hs : s.reverse with
    | nil => rfl
    | cons c r =>
      rw [hs] at h2
      rw [List.dropWhile_cons, if_neg]
      simp only [startsNonWS, Bool.not_eq_true'] at h2
      rw [h2]
      simp
  show ((s.dropWhile isWS).reverse.dropWhile isWS).reverse = s
  rw [hd, hd2, List.reverse_reverse]

theorem strip_idem (s : Str) : strip (strip s) = strip s :=
  strip_eq_self _ (startsNonWS_strip s) (startsNonWS_strip_reverse s)

theorem noPW_cons_imp (c : Char) (l : Str) (h : noPW (c :: l) = true) : noPW l = true := by
  cases l with
  | nil => rfl
  | cons d r =>
    rw [noPW_cons_cons] at h
    exact (Bool.and_eq_true_iff.mp h).2

theorem noPW_of_append_right (a b : Str) (h : noPW (a ++ b) = true) : noPW b = true := by
  induction a with
  | nil => exact h
  | cons c rest ih =>
    rw [List.cons_append] at h
    exact ih (noPW_cons_imp _ _ h)

theorem noPW_of_append_left (a b : Str) (h : noPW (a ++ b) = true) : noPW a = true := by
  induction a with
  | nil => rfl
  | cons c rest ih =>
    cases rest with
    | nil => rfl
    | cons d r2 =>
      rw [List.cons_append, List.cons_append, noPW_cons_cons] at h
      rw [noPW_cons_cons]
      rcases Bool.and_eq_true_iff.mp h with ⟨h1, h2⟩
      rw [h1, Bool.true_and]
      exact ih (by rw [List.cons_append]; exact h2)

theorem noPW_strip (s : Str) (h : noPW s = true) : noPW (strip s) = true := by
  have hs1 : s = s.takeWhile isWS ++ s.dropWhile isWS :=
    (List.takeWhile_append_dropWhile isWS s).symm
  have hu : noPW (s.dropWhile isWS) = true :=
    noPW_of_append_right _ _ (hs1 ▸ h)
  have hs2 : s.dropWhile isWS
      = strip s ++ ((s.dropWhile isWS).reverse.takeWhile isWS).reverse := by
    show _ = ((s.dropWhile isWS).reverse.dropWhile isWS).reverse ++ _
    rw [← List.reverse_append, List.takeWhile_append_dropWhile, List.reverse_reverse]
  exact noPW_of_append_left _ _ (hs2 ▸ hu)

theorem endsPunct_strip (s : Str) (h : endsPunct s = true) :
    endsPunct (strip s) = true := by
  rw [endsPunct] at h
  cases hlast : s.getLast? with
  | none => rw [hlast] at h; exact Bool.noConfusion h
  | some p =>
    rw [hlast] at h
    have hp : isWS p = false := punct_not_ws p h
    have hu_ne : s.dropWhile isWS ≠ [] := by
      intro hnil
      have hmem : p ∈ s := List.mem_of_mem_getLast? (by rw [hlast]; rfl)
      have := List.dropWhile_eq_nil_iff.mp hnil p hmem
      rw [hp] at this
      exact Bool.noConfusion this
    have hu_last : (s.dropWhile isWS).getLast? = some p := by
      rw [← List.getLast?_append_of_ne_nil (s.takeWhile isWS) hu_ne,
          List.takeWhile_append_dropWhile, hlast]
    have hT : s.dropWhile isWS
        = strip s ++ ((s.dropWhile isWS).reverse.takeWhile isWS).reverse := by
      show _ = ((s.dropWhile isWS).reverse.dropWhile isWS).reverse ++ _
      rw [← List.reverse_append, List.takeWhile_append_dropWhile, List.reverse_reverse]
    cases hTnil : ((s.dropWhile isWS).reverse.takeWhile isWS).reverse with
    | nil =>
      rw [hTnil, List.append_nil] at hT
      rw [endsPunct, ← hT, hu_last]
      exact h
    | cons t ts =>
      exfalso
      rw [hTnil] at hT
      have hlast2 : (t :: ts).getLast? = some p := by
        rw [← List.getLast?_append_of_ne_nil (strip s) (by simp), ← hT, hu_last]
      have hpm : p ∈ t :: ts := List.mem_of_mem_getLast? (by rw [hlast2]; rfl)
      have hws : isWS p = true := by
        have : p ∈ ((s.dropWhile isWS).reverse.takeWhile isWS).reverse := by
          rw [hTnil]
          exact hpm
        exact List.mem_takeWhile_imp (List.mem_reverse.mp this)
      rw [hp] at hws
      exact Bool.noConfusion hws

/-! ## Recovering segments from a rejoined string -/

theorem cond_false_of_noPW (acc : Str) (c : Char) (rest : Str)
    (hnp : noPW (acc.reverse ++ c :: rest) = true) :
    (isWS c && prevPunct acc) = false := by
  cases acc with
  | nil => simp [prevPunct]
  | cons p acc2 =>
    by_cases hw : isWS c = true
    · have h1 : noPW (p :: c :: rest) = true := by
        apply noPW_of_append_right acc2.reverse
        rw [show acc2.reverse ++ p :: c :: rest = (p :: acc2).reverse ++ c :: rest by simp]
        exact hnp
      rw [noPW_cons_cons] at h1
      rcases Bool.and_eq_true_iff.mp h1 with ⟨h2, _⟩
      have h3 : isPunct p = false := by
        rw [hw, Bool.and_true] at h2
        cases hp2 : isPunct p
        · rfl
        · rw [hp2] at h2
          simp at h2
      show (isWS c && prevPunct (p :: acc2)) = false
      rw [show prevPunct (p :: acc2) = isPunct p from rfl, h3, Bool.and_false]
    · rw [Bool.not_eq_true] at hw
      rw [hw, Bool.false_and]

theorem sentenceSplitAux_true_eq (t : Str) (ht : startsNonWS t = true) :
    sentenceSplitAux true t [] = sentenceSplitAux false t [] := by
  cases t with
  | nil => rfl
  | cons c r =>
    have hc : isWS c = false := by simpa [startsNonWS] using ht
    rw [sentenceSplitAux, sentenceSplitAux]
    simp [hc, prevPunct]

theorem sentenceSplitAux_append (xs : Str) (t : Str) (acc : Str)
    (hnp : noPW (acc.reverse ++ xs) = true)
    (hxs : xs ≠ []) (hlast : endsPunct xs = true)
    (ht : startsNonWS t = true) :
    sentenceSplitAux false (xs ++ ' ' :: t) acc
      = (acc.reverse ++ xs) :: sentenceSplitAux false t [] := by
  induction xs generalizing acc with
  | nil => exact absurd rfl hxs
  | cons x xs2 ih =>
    cases xs2 with
    | nil =>
      have hx : isPunct x = true := by
        simpa [endsPunct] using hlast
      have hxw : isWS x = false := punct_not_ws x hx
      show sentenceSplitAux false (x :: ' ' :: t) acc = _
      rw [sentenceSplitAux]
      simp only [Bool.false_and, Bool.false_eq_true, if_false, hxw, if_neg]
      rw [sentenceSplitAux]
      have hcond : (isWS ' ' && prevPunct (x :: acc)) = true := by
        rw [show prevPunct (x :: acc) = isPunct x from rfl, hx]
        rfl
      simp only [Bool.false_and, Bool.false_eq_true, if_false, hcond, if_true]
      rw [sentenceSplitAux_true_eq t ht]
      congr 1
      simp
    | cons y ys =>
      have hcond : (isWS x && prevPunct acc) = false :=
        cond_false_of_noPW acc x (y :: ys) hnp
      show sentenceSplitAux false (x :: ((y :: ys) ++ ' ' :: t)) acc = _
      rw [sentenceSplitAux]
      simp only [Bool.false_and, Bool.false_eq_true, if_false, hcond]
      have hnp' : noPW ((x :: acc).reverse ++ y :: ys) = true := by
        rw [List.reverse_cons, List.append_assoc, List.singleton_append]
        exact hnp
      have hlast' : endsPunct (y :: ys) = true := by
        rw [endsPunct] at hlast ⊢
        rwa [List.getLast?_cons_cons] at hlast
      rw [ih (x :: acc) hnp' (by simp) hlast']
      congr 1
      rw [List.reverse_cons, List.append_assoc, List.singleton_append]

theorem sentenceSplitAux_noPW_single (cs : Str) (acc : Str)
    (hnp : noPW (acc.reverse ++ cs) = true) :
    sentenceSplitAux false cs acc = [acc.reverse ++ cs] := by
  induction cs generalizing acc with
  | nil =>
    rw [sentenceSplitAux, List.append_nil]
  | cons c rest ih =>
    rw [sentenceSplitAux]
    have hcond := cond_false_of_noPW acc c rest hnp
    simp only [Bool.false_and, Bool.false_eq_true, if_false, hcond]
    have hnp' : noPW ((c :: acc).reverse ++ rest) = true := by
      rw [List.reverse_cons, List.append_assoc, List.singleton_append]
      exact hnp
    rw [ih (c :: acc) hnp']
    congr 1
    rw [List.reverse_cons, List.append_assoc, List.singleton_append]

theorem sentenceSplit_noPW (s : Str) (hnp : noPW s = true) : sentenceSplit s = [s] := by
  have := sentenceSplitAux_noPW_single s [] (by simpa using hnp)
  simpa [sentenceSplit] using this

theorem sentenceSplit_append (s t : Str) (hs : noPW s = true) (hne : s ≠ [])
    (hlast : endsPunct s = true) (ht : startsNonWS t = true) :
    sentenceSplit (s ++ ' ' :: t) = s :: sentenceSplit t := by
  have := sentenceSplitAux_append s t [] (by simpa using hs) hne hlast ht
  simpa [sentenceSplit] using this

/-! ## Shape of the chunks produced by the loop -/

theorem startsNonWS_of_no_ws (w : Str) (h : ∀ ch ∈ w, isWS ch = false) :
    startsNonWS w = true := by
  cases w with
  | nil => rfl
  | cons c r => simp [startsNonWS, h c (by simp)]

theorem startsNonWS_append (s x : Str) (hne : s ≠ []) :
    startsNonWS (s ++ x) = startsNonWS s := by
  cases s with
  | nil => exact absurd rfl hne
  | cons c r => rfl

theorem joinSp_ne_nil (L : List Str) (hL : L ≠ []) (h : ∀ s ∈ L, s ≠ []) :
    joinSp L ≠ [] := by
  cases L with
  | nil => exact absurd rfl hL
  | cons s rest =>
    cases rest with
    | nil => exact h s (by simp)
    | cons t r =>
      rw [joinSp_cons_cons]
      intro heq
      rcases List.append_eq_nil.mp heq with ⟨_, h2⟩
      exact List.cons_ne_nil _ _ h2

theorem startsNonWS_joinSp (L : List Str) (hL : L ≠ [])
    (h1 : ∀ s ∈ L, s ≠ []) (h2 : ∀ s ∈ L, startsNonWS s = true) :
    startsNonWS (joinSp L) = true := by
  cases L with
  | nil => exact absurd rfl hL
  | cons s rest =>
    cases rest with
    | nil => exact h2 s (by simp)
    | cons t r =>
      rw [joinSp_cons_cons, startsNonWS_append s _ (h1 s (by simp))]
      exact h2 s (by simp)

theorem packWords_ne_nil (N : Nat) (ws temp : List Str) (size : Nat)
    (h : temp ≠ [] ∨ ws ≠ []) : packWords N ws temp size ≠ [] := by
  induction ws generalizing temp size with
  | nil =>
    rcases h with h | h
    · rw [packWords, emit, if_neg (by simpa [List.isEmpty_iff] using h)]
      simp
    · exact absurd rfl h
  | cons w rest ih =>
    rw [packWords]
    by_cases hfit : size + w.length + 1 ≤ N
    · rw [if_pos hfit]
      exact ih _ _ (Or.inl (by simp))
    · rw [if_neg hfit]
      intro heq
      rcases List.append_eq_nil.mp heq with ⟨_, h2⟩
      exact ih [w] w.length (Or.inl (by simp)) h2

theorem packWords_mem_good (N : Nat) (ws temp : List Str) (size : Nat) (c : Str)
    (hws : ∀ w ∈ ws, w ≠ [] ∧ ∀ ch ∈ w, isWS ch = false)
    (htemp : ∀ w ∈ temp, w ≠ [] ∧ ∀ ch ∈ w, isWS ch = false)
    (hc : c ∈ packWords N ws temp size) :
    c ≠ [] ∧ startsNonWS c = true := by
  induction ws generalizing temp size with
  | nil =>
    rw [packWords] at hc
    by_cases h0 : temp.isEmpty = true
    · rw [emit, if_pos h0] at hc
      simp at hc
    · rw [emit, if_neg h0] at hc
      rw [List.mem_singleton] at hc
      subst hc
      have htne : temp ≠ [] := by simpa [List.isEmpty_iff] using h0
      exact ⟨joinSp_ne_nil temp htne (fun s hs => (htemp s hs).1),
        startsNonWS_joinSp temp htne (fun s hs => (htemp s hs).1)
          (fun s hs => startsNonWS_of_no_ws s (htemp s hs).2)⟩
  | cons w rest ih =>
    rw [packWords] at hc
    by_cases hfit : size + w.length + 1 ≤ N
    · rw [if_pos hfit] at hc
      refine ih _ _ (fun v hv => hws v (by simp [hv])) (fun v hv => ?_) hc
      rcases List.mem_append.mp hv with hv | hv
      · exact htemp v hv
      · rw [List.mem_singleton] at hv
        subst hv
        exact hws v (by simp)
    · rw [if_neg hfit] at hc
      rcases List.mem_append.mp hc with hc2 | hc2
      · by_cases h0 : temp.isEmpty = true
        · rw [emit, if_pos h0] at hc2
          simp at hc2
        · rw [emit, if_neg h0] at hc2
          rw [List.mem_singleton] at hc2
          subst hc2
          have htne : temp ≠ [] := by simpa [List.isEmpty_iff] using h0
          exact ⟨joinSp_ne_nil temp htne (fun s hs => (htemp s hs).1),
            startsNonWS_joinSp temp htne (fun s hs => (htemp s hs).1)
              (fun s hs => startsNonWS_of_no_ws s (htemp s hs).2)⟩
      · refine ih _ _ (fun v hv => hws v (by simp [hv]))
          (fun v hv => by rw [List.mem_singleton] at hv; subst hv; exact hws v (by simp)) hc2

theorem pySplit_ne_nil_of_strip (s : Str) (h1 : strip s = s) (h2 : s ≠ []) :
    pySplit s ≠ [] := by
  intro heq
  have hall := pySplit_eq_nil_allws s heq
  have := allws_strip_nil s hall
  rw [h1] at this
  exact h2 this

theorem chunkLoop_ne_nil (N : Nat) (S cur : List Str) (size : Nat)
    (hS : ∀ s ∈ S, strip s = s ∧ s ≠ [])
    (h : cur ≠ [] ∨ S ≠ []) : chunkLoop N S cur size ≠ [] := by
  induction S generalizing cur size with
  | nil =>
    rcases h with h | h
    · rw [chunkLoop, emit, if_neg (by simpa [List.isEmpty_iff] using h)]
      simp
    · exact absurd rfl h
  | cons s rest ih =>
    obtain ⟨hstrip, hne⟩ := hS s (by simp)
    rw [chunkLoop]
    rw [if_neg (by rw [hstrip]; simpa [List.isEmpty_iff] using hne)]
    by_cases hover : N < (strip s).length
    · rw [if_pos hover]
      intro heq
      rcases List.append_eq_nil.mp heq with ⟨h2, _⟩
      rcases List.append_eq_nil.mp h2 with ⟨_, h3⟩
      exact packWords_ne_nil N _ [] 0
        (Or.inr (pySplit_ne_nil_of_strip (strip s) (strip_idem s)
          (by rw [hstrip]; exact hne))) h3
    · rw [if_neg hover]
      by_cases hfit : size + (strip s).length + 1 ≤ N
      · rw [if_pos hfit]
        exact ih _ _ (fun t ht => hS t (by simp [ht])) (Or.inl (by simp))
      · rw [if_neg hfit]
        intro heq
        rcases List.append_eq_nil.mp heq with ⟨_, h2⟩
        exact ih _ _ (fun t ht => hS t (by simp [ht])) (Or.inl (by simp)) h2

theorem chunkLoop_mem_good (N : Nat) (S cur : List Str) (size : Nat) (c : Str)
    (hS : ∀ s ∈ S, strip s = s ∧ s ≠ [])
    (hcur : ∀ s ∈ cur, s ≠ [] ∧ startsNonWS s = true)
    (hc : c ∈ chunkLoop N S cur size) :
    c ≠ [] ∧ startsNonWS c = true := by
  induction S generalizing cur size with
  | nil =>
    rw [chunkLoop] at hc
    by_cases h0 : cur.isEmpty = true
    · rw [emit, if_pos h0] at hc
      simp at hc
    · rw [emit, if_neg h0] at hc
      rw [List.mem_singleton] at hc
      subst hc
      have hcne : cur ≠ [] := by simpa [List.isEmpty_iff] using h0
      exact ⟨joinSp_ne_nil cur hcne (fun s hs => (hcur s hs).1),
        startsNonWS_joinSp cur hcne (fun s hs => (hcur s hs).1)
          (fun s hs => (hcur s hs).2)⟩
  | cons s rest ih =>
    obtain ⟨hstrip, hne⟩ := hS s (by simp)
    rw [chunkLoop] at hc
    rw [if_neg (by rw [hstrip]; simpa [List.isEmpty_iff] using hne)] at hc
    by_cases hover : N < (strip s).length
    · rw [if_pos hover] at hc
      rcases List.mem_append.mp hc with hc2 | hc2
      · rcases List.mem_append.mp hc2 with hc3 | hc3
        · by_cases h0 : cur.isEmpty = true
          · rw [emit, if_pos h0] at hc3
            simp at hc3
          · rw [emit, if_neg h0] at hc3
            rw [List.mem_singleton] at hc3
            subst hc3
            have hcne : cur ≠ [] := by simpa [List.isEmpty_iff] using h0
            exact ⟨joinSp_ne_nil cur hcne (fun t ht => (hcur t ht).1),
              startsNonWS_joinSp cur hcne (fun t ht => (hcur t ht).1)
                (fun t ht => (hcur t ht).2)⟩
        · exact packWords_mem_good N _ [] 0 c
            (fun w hw => ⟨(pySplit_mem _ w hw).1, (pySplit_mem _ w hw).2⟩)
            (by simp) hc3
      · exact ih [] 0 (fun t ht => hS t (by simp [ht])) (by simp) hc2
    · rw [if_neg hover] at hc
      by_cases hfit : size + (strip s).length + 1 ≤ N
      · rw [if_pos hfit] at hc
        refine ih _ _ (fun t ht => hS t (by simp [ht])) (fun t ht => ?_) hc
        rcases List.mem_append.mp ht with ht | ht
        · exact hcur t ht
        · rw [List.mem_singleton] at ht
          subst ht
          exact ⟨by rw [hstrip]; exact hne, startsNonWS_strip s⟩
      · rw [if_neg hfit] at hc
        rcases List.mem_append.mp hc with hc2 | hc2
        · by_cases h0 : cur.isEmpty = true
          · rw [emit, if_pos h0] at hc2
            simp at hc2
          · rw [emit, if_neg h0] at hc2
            rw [List.mem_singleton] at hc2
            subst hc2
            have hcne : cur ≠ [] := by simpa [List.isEmpty_iff] using h0
            exact ⟨joinSp_ne_nil cur hcne (fun t ht => (hcur t ht).1),
              startsNonWS_joinSp cur hcne (fun t ht => (hcur t ht).1)
                (fun t ht => (hcur t ht).2)⟩
        · refine ih _ _ (fun t ht => hS t (by simp [ht]))
            (fun t ht => by
              rw [List.mem_singleton] at ht
              subst ht
              exact ⟨by rw [hstrip]; exact hne, startsNonWS_strip s⟩) hc2

theorem chainPunct_tail (x : Str) (L : List Str) (h : chainPunct (x :: L) = true) :
    chainPunct L = true := by
  cases L with
  | nil => rfl
  | cons y r =>
    rw [chainPunct_cons x _ (by simp)] at h
    exact (Bool.and_eq_true_iff.mp h).2

theorem chainPunct_suffix (A B : List Str) (h : chainPunct (A ++ B) = true) :
    chainPunct B = true := by
  induction A with
  | nil => exact h
  | cons a A2 ih =>
    rw [List.cons_append] at h
    exact ih (chainPunct_tail _ _ h)

theorem chainPunct_append_elem (A B : List Str) (h : chainPunct (A ++ B) = true)
    (hB : B ≠ []) : ∀ a ∈ A, endsPunct a = true := by
  induction A with
  | nil => simp
  | cons a A2 ih =>
    have hne : A2 ++ B ≠ [] := by
      intro heq
      exact hB (List.append_eq_nil.mp heq).2
    rw [List.cons_append, chainPunct_cons a _ hne] at h
    rcases Bool.and_eq_true_iff.mp h with ⟨h1, h2⟩
    intro x hx
    rcases List.mem_cons.mp hx with rfl | hx
    · exact h1
    · exact ih h2 x hx

theorem sentenceSplit_joinSp_chain (G : List Str)
    (hG : ∀ s ∈ G, s ≠ [] ∧ noPW s = true ∧ startsNonWS s = true)
    (hchain : chainPunct G = true) (hne : G ≠ []) :
    sentenceSplit (joinSp G) = G := by
  induction G with
  | nil => exact absurd rfl hne
  | cons g G2 ih =>
    cases G2 with
    | nil => exact sentenceSplit_noPW g (hG g (by simp)).2.1
    | cons g2 r =>
      rw [joinSp_cons_cons]
      rw [sentenceSplit_append g (joinSp (g2 :: r)) (hG g (by simp)).2.1
          (hG g (by simp)).1
          (by
            rw [chainPunct_cons g _ (by simp)] at hchain
            exact (Bool.and_eq_true_iff.mp hchain).1)
          (startsNonWS_joinSp _ (by simp) (fun s hs => (hG s (by simp [hs])).1)
            (fun s hs => (hG s (by simp [hs])).2.2))]
      rw [ih (fun s hs => hG s (by simp [hs])) (chainPunct_tail _ _ hchain) (by simp)]

theorem sentenceSplit_joinSp_chain_append (G : List Str) (t : Str)
    (hG : ∀ s ∈ G, s ≠ [] ∧ noPW s = true ∧ startsNonWS s = true)
    (hpunct : ∀ s ∈ G, endsPunct s = true)
    (ht : startsNonWS t = true) (hne : G ≠ []) :
    sentenceSplit (joinSp G ++ ' ' :: t) = G ++ sentenceSplit t := by
  induction G with
  | nil => exact absurd rfl hne
  | cons g G2 ih =>
    cases G2 with
    | nil =>
      rw [joinSp_singleton]
      rw [sentenceSplit_append g t (hG g (by simp)).2.1 (hG g (by simp)).1
          (hpunct g (by simp)) ht]
      rfl
    | cons g2 r =>
      rw [joinSp_cons_cons, List.append_assoc, List.cons_append]
      have hjne : joinSp (g2 :: r) ≠ [] :=
        joinSp_ne_nil _ (by simp) (fun s hs => (hG s (by simp [hs])).1)
      rw [sentenceSplit_append g (joinSp (g2 :: r) ++ ' ' :: t) (hG g (by simp)).2.1
          (hG g (by simp)).1 (hpunct g (by simp))
          (by
            rw [startsNonWS_append _ _ hjne]
            exact startsNonWS_joinSp _ (by simp)
              (fun s hs => (hG s (by simp [hs])).1)
              (fun s hs => (hG s (by simp [hs])).2.2))]
      rw [ih (fun s hs => hG s (by simp [hs])) (fun s hs => hpunct s (by simp [hs]))
          (by simp)]
      rfl

theorem joinSp_packWords (N : Nat) (ws temp : List Str) (size : Nat) :
    joinSp (packWords N ws temp size) = joinSp (temp ++ ws) := by
  induction ws generalizing temp size with
  | nil =>
    rw [packWords, List.append_nil]
    by_cases h0 : temp.isEmpty = true
    · rw [emit, if_pos h0]
      rw [List.isEmpty_iff] at h0
      subst h0
      rfl
    · rw [emit, if_neg h0, joinSp_singleton]
  | cons w rest ih =>
    rw [packWords]
    by_cases hfit : size + w.length + 1 ≤ N
    · rw [if_pos hfit, ih]
      rw [List.append_assoc, List.singleton_append]
    · rw [if_neg hfit]
      by_cases h0 : temp.isEmpty = true
      · rw [emit, if_pos h0]
        rw [List.isEmpty_iff] at h0
        subst h0
        rw [List.nil_append, List.nil_append]
        exact ih [w] w.length
      · rw [emit, if_neg h0]
        have htne : temp ≠ [] := by simpa [List.isEmpty_iff] using h0
        have hpne : packWords N rest [w] w.length ≠ [] :=
          packWords_ne_nil N rest [w] w.length (Or.inl (by simp))
        rw [joinSp_append [joinSp temp] _ (by simp) hpne, joinSp_singleton, ih,
            List.singleton_append, joinSp_append temp (w :: rest) htne (by simp)]

/-- Core of C9: under the hypothesis that every oversized sentence is
already single-space normalized, splitting the rejoined chunk list at
sentence boundaries recovers exactly the pending sentences `cur`
followed by the unprocessed sentences `S`. -/
theorem sentenceSplit_joinSp_chunkLoop (N : Nat) (S : List Str) :
    ∀ (cur : List Str) (size : Nat),
    (∀ s ∈ S, strip s = s ∧ s ≠ [] ∧ noPW s = true) →
    (∀ s ∈ cur, s ≠ [] ∧ noPW s = true ∧ startsNonWS s = true) →
    chainPunct (cur ++ S) = true →
    (∀ s ∈ S, N < s.length → joinSp (pySplit s) = s) →
    cur ++ S ≠ [] →
    sentenceSplit (joinSp (chunkLoop N S cur size)) = cur ++ S := by
  induction S with
  | nil =>
    intro cur size hS hcur hchain hH hne
    rw [List.append_nil] at hchain hne ⊢
    rw [chunkLoop, emit, if_neg (by simpa [List.isEmpty_iff] using hne), joinSp_singleton]
    exact sentenceSplit_joinSp_chain cur hcur hchain hne
  | cons s rest ih =>
    intro cur size hS hcur hchain hH hne
    obtain ⟨hstrip, hsne, hnp⟩ := hS s (by simp)
    have hsstart : startsNonWS s = true := by
      rw [← hstrip]
      exact startsNonWS_strip s
    have hSrest : ∀ t ∈ rest, strip t = t ∧ t ≠ [] ∧ noPW t = true :=
      fun t ht => hS t (by simp [ht])
    have hSrest2 : ∀ t ∈ rest, strip t = t ∧ t ≠ [] :=
      fun t ht => ⟨(hSrest t ht).1, (hSrest t ht).2.1⟩
    have hHrest : ∀ t ∈ rest, N < t.length → joinSp (pySplit t) = t :=
      fun t ht => hH t (by simp [ht])
    rw [chunkLoop, if_neg (by rw [hstrip]; simpa [List.isEmpty_iff] using hsne), hstrip]
    by_cases hover : N < s.length
    · rw [if_pos hover]
      have hPjoin : joinSp (packWords N (pySplit s) [] 0) = s := by
        rw [joinSp_packWords, List.nil_append]
        exact hH s (by simp) hover
      have hPne : packWords N (pySplit s) [] 0 ≠ [] :=
        packWords_ne_nil N _ [] 0
          (Or.inr (pySplit_ne_nil_of_strip s hstrip hsne))
      cases rest with
      | nil =>
        rw [show chunkLoop N [] [] 0 = [] from rfl, List.append_nil]
        by_cases hc0 : cur.isEmpty = true
        · rw [emit, if_pos hc0]
          rw [List.isEmpty_iff] at hc0
          subst hc0
          rw [List.nil_append, hPjoin, sentenceSplit_noPW s hnp]
          rfl
        · rw [emit, if_neg hc0]
          have hcne : cur ≠ [] := by simpa [List.isEmpty_iff] using hc0
          rw [joinSp_append [joinSp cur] _ (by simp) hPne, joinSp_singleton, hPjoin]
          rw [sentenceSplit_joinSp_chain_append cur s hcur
              (chainPunct_append_elem cur [s] hchain (by simp)) hsstart hcne]
          rw [sentenceSplit_noPW s hnp]
      | cons r1 r2 =>
        have hCne : chunkLoop N (r1 :: r2) [] 0 ≠ [] :=
          chunkLoop_ne_nil N _ [] 0 hSrest2 (Or.inr (by simp))
        have hCgood : ∀ c ∈ chunkLoop N (r1 :: r2) [] 0,
            c ≠ [] ∧ startsNonWS c = true :=
          fun c hc => chunkLoop_mem_good N _ [] 0 c hSrest2 (by simp) hc
        have hCstart : startsNonWS (joinSp (chunkLoop N (r1 :: r2) [] 0)) = true :=
          startsNonWS_joinSp _ hCne (fun c hc => (hCgood c hc).1)
            (fun c hc => (hCgood c hc).2)
        have hchainrest : chainPunct (s :: r1 :: r2) = true :=
          chainPunct_suffix cur _ hchain
        have hspunct : endsPunct s = true := by
          rw [chainPunct_cons s _ (by simp)] at hchainrest
          exact (Bool.and_eq_true_iff.mp hchainrest).1
        have hJC : sentenceSplit (joinSp (chunkLoop N (r1 :: r2) [] 0)) = r1 :: r2 := by
          have := ih [] 0 hSrest (by simp)
            (by rw [List.nil_append]; exact chainPunct_tail s _ hchainrest)
            hHrest (by simp)
          rwa [List.nil_append] at this
        by_cases hc0 : cur.isEmpty = true
        · rw [emit, if_pos hc0]
          rw [List.isEmpty_iff] at hc0
          subst hc0
          rw [List.nil_append, List.nil_append]
          rw [joinSp_append _ _ hPne hCne, hPjoin]
          rw [sentenceSplit_append s _ hnp hsne hspunct hCstart, hJC]
        · rw [emit, if_neg hc0]
          have hcne : cur ≠ [] := by simpa [List.isEmpty_iff] using hc0
          rw [List.append_assoc]
          have hPCne : packWords N (pySplit s) [] 0
              ++ chunkLoop N (r1 :: r2) [] 0 ≠ [] := by
            intro h
            exact hPne (List.append_eq_nil.mp h).1
          rw [joinSp_append [joinSp cur] _ (by simp) hPCne, joinSp_singleton]
          rw [joinSp_append _ _ hPne hCne, hPjoin]
          rw [sentenceSplit_joinSp_chain_append cur _ hcur
              (chainPunct_append_elem cur (s :: r1 :: r2) hchain (by simp))
              (by rw [startsNonWS_append s _ hsne]; exact hsstart) hcne]
          rw [sentenceSplit_append s _ hnp hsne hspunct hCstart, hJC]
    · rw [if_neg hover]
      by_cases hfit : size + s.length + 1 ≤ N
      · rw [if_pos hfit]
        have hcur' : ∀ t ∈ cur ++ [s], t ≠ [] ∧ noPW t = true ∧ startsNonWS t = true := by
          intro t ht
          rcases List.mem_append.mp ht with ht | ht
          · exact hcur t ht
          · rw [List.mem_singleton] at ht
            subst ht
            exact ⟨hsne, hnp, hsstart⟩
        have := ih (cur ++ [s]) (size + s.length + 1) hSrest hcur'
          (by rw [List.append_assoc, List.singleton_append]; exact hchain)
          hHrest (by simp)
        rw [this, List.append_assoc, List.singleton_append]
      · rw [if_neg hfit]
        have hcur1 : ∀ t ∈ [s], t ≠ [] ∧ noPW t = true ∧ startsNonWS t = true := by
          intro t ht
          rw [List.mem_singleton] at ht
          subst ht
          exact ⟨hsne, hnp, hsstart⟩
        have hIH1 : sentenceSplit (joinSp (chunkLoop N rest [s] s.length))
            = [s] ++ rest := by
          exact ih [s] s.length hSrest hcur1
            (by rw [List.singleton_append]; exact chainPunct_suffix cur _ hchain)
            hHrest (by simp)
        by_cases hc0 : cur.isEmpty = true
        · rw [emit, if_pos hc0]
          rw [List.isEmpty_iff] at hc0
          subst hc0
          rw [List.nil_append, hIH1]
          rfl
        · rw [emit, if_neg hc0]
          have hcne : cur ≠ [] := by simpa [List.isEmpty_iff] using hc0
          have hC2ne : chunkLoop N rest [s] s.length ≠ [] :=
            chunkLoop_ne_nil N rest [s] s.length hSrest2 (Or.inl (by simp))
          have hC2good : ∀ c ∈ chunkLoop N rest [s] s.length,
              c ≠ [] ∧ startsNonWS c = true :=
            fun c hc => chunkLoop_mem_good N rest [s] s.length c hSrest2
              (fun t ht => by
                rw [List.mem_singleton] at ht
                subst ht
                exact ⟨hsne, hsstart⟩) hc
          rw [joinSp_append [joinSp cur] _ (by simp) hC2ne, joinSp_singleton]
          rw [sentenceSplit_joinSp_chain_append cur _ hcur
              (chainPunct_append_elem cur (s :: rest) hchain (by simp))
              (startsNonWS_joinSp _ hC2ne (fun c hc => (hC2good c hc).1)
                (fun c hc => (hC2good c hc).2)) hcne]
          rw [hIH1, List.singleton_append]

/-- The loop ignores blank sentences and strips the rest up front, so it
may be run on the cleaned sentence list instead. -/
theorem chunkLoop_clean (N : Nat) (L : List Str) : ∀ (cur : List Str) (size : Nat),
    chunkLoop N L cur size
      = chunkLoop N ((L.map strip).filter (fun s => !s.isEmpty)) cur size := by
  induction L with
  | nil => intro cur size; rfl
  | cons s rest ih =>
    intro cur size
    rw [List.map_cons, List.filter_cons]
    by_cases hblank : (strip s).isEmpty = true
    · rw [if_neg (by simp [hblank])]
      rw [chunkLoop, if_pos hblank]
      exact ih cur size
    · rw [if_pos (by simp [hblank])]
      rw [chunkLoop, if_neg hblank]
      conv_rhs => rw [chunkLoop]
      rw [strip_idem s, if_neg hblank]
      by_cases hover : N < (strip s).length
      · rw [if_pos hover, if_pos hover, ih [] 0]
      · rw [if_neg hover, if_neg hover]
        by_cases hfit : size + (strip s).length + 1 ≤ N
        · rw [if_pos hfit, if_pos hfit, ih _ _]
        · rw [if_neg hfit, if_neg hfit, ih _ _]

theorem chainPunct_clean (L : List Str) (h : chainPunct L = true) :
    chainPunct ((L.map strip).filter (fun s => !s.isEmpty)) = true := by
  induction L with
  | nil => rfl
  | cons s rest ih =>
    rw [List.map_cons, List.filter_cons]
    by_cases hblank : (strip s).isEmpty = true
    · rw [if_neg (by simp [hblank])]
      exact ih (chainPunct_tail _ _ h)
    · rw [if_pos (by simp [hblank])]
      cases hf : (rest.map strip).filter (fun t => !t.isEmpty) with
      | nil => rfl
      | cons c cs =>
        rw [chainPunct_cons _ _ (by simp)]
        have hrestne : rest ≠ [] := by
          intro h0
          subst h0
          simp at hf
        have hpunct : endsPunct s = true := by
          cases rest with
          | nil => exact absurd rfl hrestne
          | cons r1 r2 =>
            rw [chainPunct_cons s _ (by simp)] at h
            exact (Bool.and_eq_true_iff.mp h).1
        rw [endsPunct_strip s hpunct, Bool.true_and, ← hf]
        exact ih (chainPunct_tail _ _ h)

/-! ## C9: idempotence of re-chunking -/

/-- C9 counterexample: for `"ab  cd"` with max size 5 the single
oversized sentence is word-split into `["ab", "cd"]`; the rejoin
`"ab cd"` now fits in one chunk, so re-chunking yields `["ab cd"]`, a
different chunk sequence. -/
theorem c9_counterexample :
    split_into_chunks "ab  cd".data 5 = ["ab".data, "cd".data] ∧
    split_into_chunks (combine_chunks (split_into_chunks "ab  cd".data 5)) 5
      = ["ab cd".data] ∧
    split_into_chunks (combine_chunks (split_into_chunks "ab  cd".data 5)) 5
      ≠ split_into_chunks "ab  cd".data 5 :=
  ⟨by decide, by decide, by decide⟩

/-- C9 (amended): re-chunking the single-space rejoin with the same max
size reproduces the same chunk sequence, provided every trimmed sentence
longer than the limit is already single-space normalized (equal to the
single-space join of its own words).  The counterexample shows the
hypothesis is needed: whitespace runs inside an oversized sentence are
collapsed by the word path, changing the sentence's length on the second
pass. -/
theorem c9_rechunk_idempotent (text : Str) (N : Nat)
    (hH : ∀ s ∈ cleanSents text, N < s.length → joinSp (pySplit s) = s) :
    split_into_chunks (combine_chunks (split_into_chunks text N)) N
      = split_into_chunks text N := by
  by_cases htext : text.isEmpty = true
  · rw [List.isEmpty_iff] at htext
    subst htext
    rfl
  · have hclean : ∀ s ∈ cleanSents text, strip s = s ∧ s ≠ [] ∧ noPW s = true := by
      intro s hs
      rw [cleanSents, List.mem_filter] at hs
      obtain ⟨hmem, hkeep⟩ := hs
      rcases List.mem_map.mp hmem with ⟨seg, hseg, rfl⟩
      have hne : strip seg ≠ [] := by
        have : (strip seg).isEmpty = false := by simpa using hkeep
        exact List.isEmpty_eq_false.mp this
      exact ⟨strip_idem seg, hne,
        noPW_strip seg (noPW_mem_sentenceSplitAux text false [] seg (by rfl) hseg)⟩
    have hchain : chainPunct (cleanSents text) = true :=
      chainPunct_clean _ (chainPunct_sentenceSplitAux text false [])
    have hstep1 : split_into_chunks text N = chunkLoop N (cleanSents text) [] 0 := by
      rw [split_into_chunks, if_neg htext]
      exact chunkLoop_clean N (sentenceSplit text) [] 0
    by_cases hS0 : cleanSents text = []
    · rw [hstep1, hS0]
      rfl
    · have hrec : sentenceSplit (joinSp (chunkLoop N (cleanSents text) [] 0))
          = cleanSents text := by
        have := sentenceSplit_joinSp_chunkLoop N (cleanSents text) [] 0 hclean
          (by simp) (by rw [List.nil_append]; exact hchain)
          (fun s hs => hH s hs) (by rw [List.nil_append]; exact hS0)
        rwa [List.nil_append] at this
      rw [hstep1]
      have hJne : combine_chunks (chunkLoop N (cleanSents text) [] 0) ≠ [] := by
        intro h
        rw [combine_chunks] at h
        rw [h] at hrec
        have hmem : ([] : Str) ∈ cleanSents text := by
          rw [← hrec]
          show ([] : Str) ∈ sentenceSplitAux false [] []
          simp [sentenceSplitAux]
        exact (hclean [] hmem).2.1 rfl
      rw [split_into_chunks, if_neg (by simpa [List.isEmpty_iff] using hJne)]
      rw [show combine_chunks (chunkLoop N (cleanSents text) [] 0)
          = joinSp (chunkLoop N (cleanSents text) [] 0) from rfl]
      rw [hrec]

theorem c9_rechunk_idempotent_witness :
    (∀ s ∈ cleanSents "Aa. Bb cc.".data, 5 < s.length → joinSp (pySplit s) = s) ∧
    split_into_chunks (combine_chunks (split_into_chunks "Aa. Bb cc.".data 5)) 5
      = split_into_chunks "Aa. Bb cc.".data 5 :=
  ⟨by decide, c9_rechunk_idempotent "Aa. Bb cc.".data 5 (by decide)⟩
